import Mathlib

/-!
# Phone number lookup: a shallow embedding of `validate.go` and `main.go`

Go strings are byte sequences, so a string is modelled as a list of bytes.
The standard-library functions the program calls (`strings.TrimPrefix`,
`strings.ReplaceAll`, `strings.Split`, `regexp`, ...) are modelled on bytes, the
rune-based ones through a model of `utf8.DecodeRuneInString`.

The two tables are Go maps.  A lookup `m[k]` is modelled by `mapGet`; a
`range` over a map visits the entries in an unspecified order, which is modelled
by an explicit enumeration `order`, a permutation of the table.

A slice expression out of range panics; the functions that slice return an
`Option`, where `none` is the panic.
-/

set_option autoImplicit false

namespace PhoneLookup

/-! ## Strings -/

/-- A byte. -/
abbrev Byte := Fin 256

/-- A Go string: a sequence of bytes. -/
abbrev GoString := List Byte

/-- The byte with value `n % 256`. -/
def byte (n : Nat) : Byte := ⟨n % 256, Nat.mod_lt _ (by decide)⟩

/-- UTF-8 encoding of one code point (below 0x110000, not a surrogate). -/
def encodeRune (r : Nat) : GoString :=
  if r < 0x80 then [byte r]
  else if r < 0x800 then [byte (0xC0 + r / 64), byte (0x80 + r % 64)]
  else if r < 0x10000 then
    [byte (0xE0 + r / 4096), byte (0x80 + r / 64 % 64), byte (0x80 + r % 64)]
  else
    [byte (0xF0 + r / 262144), byte (0x80 + r / 4096 % 64), byte (0x80 + r / 64 % 64),
      byte (0x80 + r % 64)]

/-- The Go string denoted by a string literal: its UTF-8 bytes. -/
def str (s : String) : GoString := s.data.flatMap (fun c => encodeRune c.toNat)

/-- Go `len(s)`, a signed integer. -/
def len (s : GoString) : Int := (s.length : Int)

/-- Go `s[lo:]`: panics (`none`) unless `0 ≤ lo ≤ len(s)`. -/
def sliceFrom (s : GoString) (lo : Int) : Option GoString :=
  if 0 ≤ lo ∧ lo ≤ len s then some (s.drop lo.toNat) else none

/-- Go `s[:hi]`: panics (`none`) unless `0 ≤ hi ≤ len(s)`. -/
def sliceTo (s : GoString) (hi : Int) : Option GoString :=
  if 0 ≤ hi ∧ hi ≤ len s then some (s.take hi.toNat) else none

/-- Go `strings.HasPrefix(s, prefix)`. -/
def HasPrefix (s pre : GoString) : Bool := pre.isPrefixOf s

/-- Go `strings.HasSuffix(s, suffix)`. -/
def HasSuffix (s suf : GoString) : Bool := suf.isSuffixOf s

/-- Go `strings.TrimPrefix(s, prefix)`: `s` without the leading `prefix`, or `s` itself when
it does not start with `prefix`. -/
def TrimPrefix (s pre : GoString) : GoString :=
  if HasPrefix s pre then s.drop pre.length else s

/-- Go `strings.Contains(s, substr)`. -/
def Contains : GoString → GoString → Bool
  | [], sub => sub.isEmpty
  | b :: t, sub => sub.isPrefixOf (b :: t) || Contains t sub

/-- Go `strings.ReplaceAll(s, old, new)` for a one-byte `old`. -/
def ReplaceAll (s : GoString) (old : Byte) (new : GoString) : GoString :=
  s.flatMap (fun b => if b = old then new else [b])

/-- Go `strings.Split(s, sep)` for a one-byte `sep`: the substrings between the
separators; `n` separators give `n + 1` substrings. -/
def Split : GoString → Byte → List GoString
  | [], _ => [[]]
  | b :: t, sep =>
    if b = sep then [] :: Split t sep
    else
      match Split t sep with
      | [] => [[b]]
      | part :: parts => (b :: part) :: parts

/-- Go `utf8.RuneError`. -/
def RuneError : Nat := 0xFFFD

/-- Go `utf8.DecodeRuneInString(s)`: the first rune of `s` and its width in bytes; an
invalid encoding gives `(RuneError, 1)`, the empty string `(RuneError, 0)`. -/
def DecodeRuneInString : GoString → Nat × Nat
  | [] => (RuneError, 0)
  | s0 :: rest =>
    if s0.val < 0x80 then (s0.val, 1)
    else if s0.val < 0xC2 then (RuneError, 1)
    else if s0.val < 0xE0 then
      match rest with
      | s1 :: _ =>
        if 0x80 ≤ s1.val ∧ s1.val ≤ 0xBF then (s0.val % 32 * 64 + s1.val % 64, 2)
        else (RuneError, 1)
      | [] => (RuneError, 1)
    else if s0.val < 0xF0 then
      let lo := if s0.val = 0xE0 then 0xA0 else 0x80
      let hi := if s0.val = 0xED then 0x9F else 0xBF
      match rest with
      | s1 :: s2 :: _ =>
        if lo ≤ s1.val ∧ s1.val ≤ hi ∧ 0x80 ≤ s2.val ∧ s2.val ≤ 0xBF then
          (s0.val % 16 * 4096 + s1.val % 64 * 64 + s2.val % 64, 3)
        else (RuneError, 1)
      | _ => (RuneError, 1)
    else if s0.val < 0xF5 then
      let lo := if s0.val = 0xF0 then 0x90 else 0x80
      let hi := if s0.val = 0xF4 then 0x8F else 0xBF
      match rest with
      | s1 :: s2 :: s3 :: _ =>
        if lo ≤ s1.val ∧ s1.val ≤ hi ∧ 0x80 ≤ s2.val ∧ s2.val ≤ 0xBF ∧
            0x80 ≤ s3.val ∧ s3.val ≤ 0xBF then
          (s0.val % 8 * 262144 + s1.val % 64 * 4096 + s2.val % 64 * 64 + s3.val % 64, 4)
        else (RuneError, 1)
      | _ => (RuneError, 1)
    else (RuneError, 1)

/-- The runes of `s` in order, decoded one after the other; at most `fuel` of them. -/
def runesAux : Nat → GoString → List Nat
  | 0, _ => []
  | _ + 1, [] => []
  | fuel + 1, b :: t =>
    (DecodeRuneInString (b :: t)).1 :: runesAux fuel ((b :: t).drop (DecodeRuneInString (b :: t)).2)

/-- The runes a Go `for _, r := range s` loop visits (every rune takes at least one byte, so
`len(s)` steps are enough). -/
def runes (s : GoString) : List Nat := runesAux s.length s

/-- Go `unicode.IsSpace(r)`. -/
def IsSpace (r : Nat) : Bool :=
  (0x09 ≤ r ∧ r ≤ 0x0D) ∨ r = 0x20 ∨ r = 0x85 ∨ r = 0xA0 ∨ r = 0x1680 ∨
    (0x2000 ≤ r ∧ r ≤ 0x200A) ∨ r = 0x2028 ∨ r = 0x2029 ∨ r = 0x202F ∨ r = 0x205F ∨ r = 0x3000

/-- The test `strings.TrimSpace(s) == ""`. `TrimSpace` removes the leading and the trailing
white-space runes, so what is left is empty exactly when every rune of `s` is white space. -/
def trimSpaceIsEmpty (s : GoString) : Bool := (runes s).all IsSpace

/-- The character class `[0-9]` on runes. -/
def isDigitRune (r : Nat) : Bool := 0x30 ≤ r ∧ r ≤ 0x39

/-- The character class `[0-9 ]` on runes. -/
def isDigitOrSpaceRune (r : Nat) : Bool := isDigitRune r || r = 0x20

/-- Go `regexp.MustCompile("^[C]+$").MatchString(s)` for a character class `C`: the whole of `s`
is one or more runes of the class (an invalid byte counts as the rune `RuneError`). -/
def matchClassPlus (cls : Nat → Bool) (s : GoString) : Bool :=
  !s.isEmpty && (runes s).all cls

/-- Go `strings.ToUpper(s)` on ASCII strings: the letters `a`-`z` become `A`-`Z`.  The program
applies it only to a country code that passed the two-letter check, hence to ASCII letters. -/
def ToUpper (s : GoString) : GoString :=
  s.map (fun b => if 0x61 ≤ b.val ∧ b.val ≤ 0x7A then byte (b.val - 0x20) else b)

/-! ## Maps -/

/-- Go `m[k]` with the comma-ok form: `none` when `k` is not a key. -/
def mapGet {β : Type} : List (GoString × β) → GoString → Option β
  | [], _ => none
  | (k, v) :: rest, key => if k = key then some v else mapGet rest key

/-! ## validate.go -/

/-- Country code to dial code. -/
def CountryCodeMap : List (GoString × GoString) :=
  [(str "US", str "1"), (str "MX", str "52"), (str "ES", str "34"), (str "PT", str "351"),
   (str "CA", str "1"), (str "GB", str "44"), (str "FR", str "33"), (str "DE", str "49"),
   (str "IT", str "39"), (str "JP", str "81")]

/-- Country code to the length of its area codes. -/
def AreaCodeMap : List (GoString × Int) :=
  [(str "US", 3), (str "MX", 3), (str "ES", 3), (str "PT", 2), (str "CA", 3), (str "GB", 4),
   (str "FR", 1), (str "DE", 3), (str "IT", 3), (str "JP", 1)]

/-- `cleanNumber` (validate.go, lines 41-43). -/
def cleanNumber (phoneNumber : GoString) : GoString :=
  ReplaceAll (TrimPrefix phoneNumber (str "+")) (byte 0x20) []

/-- `stripPlus` (validate.go, lines 45-47). -/
def stripPlus (phoneNumber : GoString) : GoString :=
  TrimPrefix phoneNumber (str "+")

/-- `validateCountryCodeMeetsISO_3166_1_alpha_2` (validate.go, lines 50-61): the loop returns
false at the first rune that is not a letter. -/
def validateCountryCodeMeetsISO_3166_1_alpha_2 (countryCode : GoString) : Bool :=
  if len countryCode ≠ 2 then false
  else
    (runes countryCode).all
      (fun char => (0x41 ≤ char ∧ char ≤ 0x5A) ∨ (0x61 ≤ char ∧ char ≤ 0x7A))

/-- `validatePhoneNumberFormat` (validate.go, lines 63-75). -/
def validatePhoneNumberFormat (phoneNumber : GoString) : Bool :=
  let clean := stripPlus phoneNumber
  if clean = [] ∨ trimSpaceIsEmpty clean = true then false
  else matchClassPlus isDigitOrSpaceRune clean

/-- `validateSpaces` (validate.go, lines 78-105): the loop returns false at the first part
that is empty or is not made of digits. -/
def validateSpaces (phoneNumber : GoString) : Bool :=
  let clean := stripPlus phoneNumber
  if Contains clean (str "  ") then false
  else if HasPrefix clean (str " ") ∨ HasSuffix clean (str " ") then false
  else
    let parts := Split clean (byte 0x20)
    if parts.all (fun part => part ≠ [] ∧ matchClassPlus isDigitRune part) then
      decide (parts.length ≤ 3)
    else false

/-- The priority list of dial codes of `extractCountryCodeFromNumber`. -/
def dialCodes : List GoString :=
  [str "351", str "52", str "44", str "49", str "39", str "81", str "34", str "33", str "1"]

/-- The inner loop of `extractCountryCodeFromNumber`: the first country, in the enumeration
`order` of the map, whose dial code is `dialCode`. -/
def findCountry : List (GoString × GoString) → GoString → Option GoString
  | [], _ => none
  | (country, code) :: rest, dialCode =>
    if code = dialCode then some country else findCountry rest dialCode

/-- The outer loop of `extractCountryCodeFromNumber` over the dial codes still to try. -/
def extractLoop (order : List (GoString × GoString)) (clean : GoString) :
    List GoString → GoString × GoString × Bool
  | [] => ([], [], false)
  | dialCode :: more =>
    if HasPrefix clean dialCode then
      if dialCode = str "1" then (str "US", dialCode, true)
      else
        match findCountry order dialCode with
        | some country => (country, dialCode, true)
        | none => extractLoop order clean more
    else extractLoop order clean more

/-- `extractCountryCodeFromNumber` (validate.go, lines 107-132), with `order` the order in
which `range CountryCodeMap` visits the entries. -/
def extractCountryCodeFromNumber (order : List (GoString × GoString)) (phoneNumber : GoString) :
    GoString × GoString × Bool :=
  extractLoop order (cleanNumber phoneNumber) dialCodes

/-! ## main.go -/

structure PhoneNumberResponse where
  PhoneNumber : GoString
  CountryCode : GoString
  AreaCode : GoString
  LocalPhoneNumber : GoString
  deriving DecidableEq, Repr

structure ErrorResponse where
  PhoneNumber : GoString
  Error : List (GoString × GoString)
  deriving DecidableEq, Repr

/-- The pair a parsing function returns: a result pointer and an error pointer, either of
which may be `nil`. -/
abbrev Returned := Option PhoneNumberResponse × Option ErrorResponse

/-- `processNumberWithCountryCode` (main.go, lines 23-57); `none` is a slice out of range. -/
def processNumberWithCountryCode (phoneNumber dialCode countryCode : GoString) :
    Option Returned :=
  let clean := cleanNumber phoneNumber
  match sliceFrom clean (len dialCode) with
  | none => none
  | some remainingNumber =>
    match mapGet AreaCodeMap countryCode with
    | none =>
      some (none, some ⟨phoneNumber, [(str "countryCode", str "unsupported country")]⟩)
    | some areaCodeLength =>
      let split : Option (GoString × GoString) :=
        if areaCodeLength > 0 ∧ len remainingNumber > areaCodeLength then
          match sliceTo remainingNumber areaCodeLength, sliceFrom remainingNumber areaCodeLength with
          | some areaCode, some localNumber => some (areaCode, localNumber)
          | _, _ => none
        else some ([], remainingNumber)
      match split with
      | none => none
      | some (areaCode, localNumber) =>
        let fullPhoneNumber := str "+" ++ dialCode ++ remainingNumber
        some (some ⟨fullPhoneNumber, countryCode, areaCode, localNumber⟩, none)

/-- `processNumberWithoutCountryCode` (main.go, lines 59-115); `none` is a slice out of
range. -/
def processNumberWithoutCountryCode (phoneNumber countryCode : GoString) : Option Returned :=
  let clean := cleanNumber phoneNumber
  if countryCode = [] then
    some (none, some ⟨phoneNumber, [(str "countryCode", str "required value is missing")]⟩)
  else if !validateCountryCodeMeetsISO_3166_1_alpha_2 countryCode then
    some (none, some ⟨phoneNumber, [(str "countryCode", str "invalid format")]⟩)
  else
    match mapGet CountryCodeMap (ToUpper countryCode) with
    | none =>
      some (none, some ⟨phoneNumber, [(str "countryCode", str "unsupported country")]⟩)
    | some dialCode =>
      match mapGet AreaCodeMap (ToUpper countryCode) with
      | none =>
        some (none, some ⟨phoneNumber, [(str "countryCode", str "unsupported country")]⟩)
      | some areaCodeLength =>
        let split : Option (GoString × GoString) :=
          if areaCodeLength > 0 ∧ len clean > areaCodeLength then
            match sliceTo clean areaCodeLength, sliceFrom clean areaCodeLength with
            | some areaCode, some localNumber => some (areaCode, localNumber)
            | _, _ => none
          else some ([], clean)
        match split with
        | none => none
        | some (areaCode, localNumber) =>
          let fullPhoneNumber := str "+" ++ dialCode ++ clean
          some (some ⟨fullPhoneNumber, ToUpper countryCode, areaCode, localNumber⟩, none)

/-- `parsePhoneNumber` (main.go, lines 117-142). -/
def parsePhoneNumber (order : List (GoString × GoString)) (phoneNumber countryCode : GoString) :
    Option Returned :=
  if !validatePhoneNumberFormat phoneNumber then
    some (none, some ⟨phoneNumber, [(str "phoneNumber", str "invalid format")]⟩)
  else if !validateSpaces phoneNumber then
    some (none, some ⟨phoneNumber, [(str "phoneNumber", str "invalid space placement")]⟩)
  else
    match extractCountryCodeFromNumber order phoneNumber with
    | (extractedCountryCode, dialCode, true) =>
      processNumberWithCountryCode phoneNumber dialCode extractedCountryCode
    | (_, _, false) => processNumberWithoutCountryCode phoneNumber countryCode

/-- What `c.JSON` is given to serialise: an error body, or the result pointer (which Go
would serialise even when it is `nil`). -/
inductive HandlerBody where
  | error (e : ErrorResponse)
  | result (r : Option PhoneNumberResponse)
  deriving DecidableEq, Repr

/-- The HTTP response of the handler: status code and body. -/
structure HandlerResponse where
  status : Nat
  body : HandlerBody
  deriving DecidableEq, Repr

/-- `phoneNumberHandler` (main.go, lines 144-163) as a function of the two query values
(`c.Query` gives the empty string for a missing parameter); `http.StatusBadRequest` is 400
and `http.StatusOK` is 200. `none` is a panic inside the parser. -/
def phoneNumberHandler (order : List (GoString × GoString)) (phoneNumber countryCode : GoString) :
    Option HandlerResponse :=
  if phoneNumber = [] then
    some ⟨400, .error ⟨[], [(str "phoneNumber", str "required parameter is missing")]⟩⟩
  else
    match parsePhoneNumber order phoneNumber countryCode with
    | none => none
    | some (result, errorResp) =>
      match errorResp with
      | some e => some ⟨400, .error e⟩
      | none => some ⟨200, .result result⟩

/-! ## Vocabulary of the statements -/

/-- A string of ASCII digits only. -/
def IsDigits (t : GoString) : Prop := ∀ b ∈ t, 0x30 ≤ b.val ∧ b.val ≤ 0x39

instance (t : GoString) : Decidable (IsDigits t) := by
  unfold IsDigits; infer_instance

/-- An ASCII letter, upper or lower case. -/
def IsAsciiLetter (b : Byte) : Prop :=
  (0x41 ≤ b.val ∧ b.val ≤ 0x5A) ∨ (0x61 ≤ b.val ∧ b.val ≤ 0x7A)

instance (b : Byte) : Decidable (IsAsciiLetter b) := by
  unfold IsAsciiLetter; infer_instance

/-- The extractor with the table lookups carried out. -/
def extractResolved (clean : GoString) : GoString × GoString × Bool :=
  if HasPrefix clean (str "351") then (str "PT", str "351", true)
  else if HasPrefix clean (str "52") then (str "MX", str "52", true)
  else if HasPrefix clean (str "44") then (str "GB", str "44", true)
  else if HasPrefix clean (str "49") then (str "DE", str "49", true)
  else if HasPrefix clean (str "39") then (str "IT", str "39", true)
  else if HasPrefix clean (str "81") then (str "JP", str "81", true)
  else if HasPrefix clean (str "34") then (str "ES", str "34", true)
  else if HasPrefix clean (str "33") then (str "FR", str "33", true)
  else if HasPrefix clean (str "1") then (str "US", str "1", true)
  else ([], [], false)

/-- The area-code split of both processing functions, with the slices carried out. -/
def splitPair (rest : GoString) (N : Int) : GoString × GoString :=
  if N > 0 ∧ len rest > N then (rest.take N.toNat, rest.drop N.toNat) else ([], rest)

/-! ## Facts about the string model -/

theorem str_plus : str "+" = [(43 : Byte)] := by decide

theorem str_space : str " " = [(32 : Byte)] := by decide

theorem str_two_spaces : str "  " = [(32 : Byte), 32] := by decide

theorem byte_space : byte 0x20 = (32 : Byte) := by decide

theorem hasPrefix_iff (s pre : GoString) : HasPrefix s pre = true ↔ pre <+: s := by
  simp [HasPrefix]

theorem hasSuffix_iff (s suf : GoString) : HasSuffix s suf = true ↔ suf <:+ s := by
  simp [HasSuffix]

theorem stripPlus_cons_plus (t : GoString) : stripPlus ((43 : Byte) :: t) = t := by
  simp [stripPlus, TrimPrefix, HasPrefix, str_plus]

theorem stripPlus_of_head (s : GoString) (h : s.head? ≠ some (43 : Byte)) : stripPlus s = s := by
  cases s with
  | nil => simp [stripPlus, TrimPrefix, HasPrefix, str_plus]
  | cons b t =>
    have hb : ¬ (43 : Byte) = b := by
      intro hb
      apply h
      simp [hb]
    simp [stripPlus, TrimPrefix, HasPrefix, str_plus, hb]

theorem cleanNumber_eq (s : GoString) : cleanNumber s = ReplaceAll (stripPlus s) 32 [] := rfl

theorem replaceAll_nil_eq_filter (s : GoString) (old : Byte) :
    ReplaceAll s old [] = s.filter (fun b => decide (b ≠ old)) := by
  induction s with
  | nil => rfl
  | cons b t ih =>
    simp only [ReplaceAll, List.flatMap_cons] at ih ⊢
    rw [ih]
    by_cases hb : b = old <;> simp [hb, List.filter_cons]

theorem replaceAll_of_not_mem (s : GoString) (old : Byte) (h : old ∉ s) :
    ReplaceAll s old [] = s := by
  rw [replaceAll_nil_eq_filter, List.filter_eq_self]
  intro b hb
  simp only [ne_eq, decide_not, Bool.not_eq_true', decide_eq_false_iff_not]
  intro hbo
  exact h (hbo ▸ hb)

theorem not_mem_replaceAll (s : GoString) (old : Byte) : old ∉ ReplaceAll s old [] := by
  rw [replaceAll_nil_eq_filter]
  simp [List.mem_filter]

theorem space_not_mem_of_isDigits (t : GoString) (h : IsDigits t) : (32 : Byte) ∉ t := by
  intro hm
  exact absurd (h _ hm) (by decide)

theorem plus_not_head_of_isDigits (t : GoString) (h : IsDigits t) :
    t.head? ≠ some (43 : Byte) := by
  cases t with
  | nil => simp
  | cons b t =>
    intro hb
    have := h b (List.mem_cons_self _ _)
    simp only [List.head?_cons, Option.some.injEq] at hb
    rw [hb] at this
    exact absurd this (by decide)

/-! ### Decoding -/

theorem decode_ascii (b : Byte) (t : GoString) (h : b.val < 0x80) :
    DecodeRuneInString (b :: t) = (b.val, 1) := by
  simp [DecodeRuneInString, h]

theorem decode_width_pos (b : Byte) (t : GoString) : 1 ≤ (DecodeRuneInString (b :: t)).2 := by
  rcases t with _ | ⟨s1, _ | ⟨s2, _ | ⟨s3, t⟩⟩⟩ <;> simp only [DecodeRuneInString] <;>
    split_ifs <;> simp

theorem decode_non_ascii (b : Byte) (t : GoString) (h : 0x80 ≤ b.val) :
    0x80 ≤ (DecodeRuneInString (b :: t)).1 := by
  rcases t with _ | ⟨s1, _ | ⟨s2, _ | ⟨s3, t⟩⟩⟩ <;> simp only [DecodeRuneInString] <;>
    split_ifs <;> simp only [RuneError] <;> omega

/-- More fuel than the length of the string changes nothing: `runes` decodes all of `s`. -/
theorem runesAux_fuel (n : Nat) : ∀ (s : GoString) (k : Nat), s.length ≤ n →
    runesAux (n + k) s = runesAux n s := by
  induction n with
  | zero =>
    intro s k hs
    have : s = [] := List.length_eq_zero.mp (Nat.le_zero.mp hs)
    subst this
    cases k <;> rfl
  | succ n ih =>
    intro s k hs
    cases s with
    | nil => rw [Nat.add_right_comm]; rfl
    | cons b t =>
      rw [Nat.add_right_comm]
      simp only [runesAux]
      rw [ih]
      have := decode_width_pos b t
      simp only [List.length_drop, List.length_cons] at hs ⊢
      omega

theorem runesAux_all_ascii (cls : Nat → Bool) (hc : ∀ r, cls r = true → r < 0x80) (n : Nat) :
    ∀ s : GoString, s.length ≤ n →
      ((runesAux n s).all cls = true ↔ ∀ b ∈ s, cls b.val = true) := by
  induction n with
  | zero =>
    intro s hs
    have : s = [] := List.length_eq_zero.mp (Nat.le_zero.mp hs)
    subst this
    simp [runesAux]
  | succ n ih =>
    intro s hs
    cases s with
    | nil => simp [runesAux]
    | cons b t =>
      by_cases hb : b.val < 0x80
      · have ht : t.length ≤ n := by simpa using hs
        simp only [runesAux, decode_ascii b t hb, List.drop_succ_cons, List.drop_zero,
          List.all_cons, Bool.and_eq_true, ih t ht, List.mem_cons, forall_eq_or_imp]
      · have h1 : ¬ cls (DecodeRuneInString (b :: t)).1 = true := by
          intro hcl
          have := hc _ hcl
          have := decode_non_ascii b t (by omega)
          omega
        have h2 : ¬ cls b.val = true := fun hcl => hb (hc _ hcl)
        simp [runesAux, h1, h2]

theorem runes_all_ascii (cls : Nat → Bool) (hc : ∀ r, cls r = true → r < 0x80) (s : GoString) :
    (runes s).all cls = true ↔ ∀ b ∈ s, cls b.val = true :=
  runesAux_all_ascii cls hc s.length s (Nat.le_refl _)

theorem isDigitRune_lt (r : Nat) (h : isDigitRune r = true) : r < 0x80 := by
  simp [isDigitRune] at h
  omega

theorem isDigitOrSpaceRune_lt (r : Nat) (h : isDigitOrSpaceRune r = true) : r < 0x80 := by
  simp [isDigitOrSpaceRune, isDigitRune] at h
  omega

theorem matchDigits_iff (s : GoString) :
    matchClassPlus isDigitRune s = true ↔ s ≠ [] ∧ IsDigits s := by
  simp only [matchClassPlus, Bool.and_eq_true, Bool.not_eq_true', List.isEmpty_eq_false,
    runes_all_ascii _ isDigitRune_lt, IsDigits]
  simp [isDigitRune]

theorem matchDigitsSpaces_iff (s : GoString) :
    matchClassPlus isDigitOrSpaceRune s = true ↔
      s ≠ [] ∧ ∀ b ∈ s, (0x30 ≤ b.val ∧ b.val ≤ 0x39) ∨ b = (32 : Byte) := by
  simp only [matchClassPlus, Bool.and_eq_true, Bool.not_eq_true', List.isEmpty_eq_false,
    runes_all_ascii _ isDigitOrSpaceRune_lt]
  have key : ∀ b : Byte, isDigitOrSpaceRune b.val = true ↔
      ((0x30 ≤ b.val ∧ b.val ≤ 0x39) ∨ b = (32 : Byte)) := by
    intro b
    simp only [isDigitOrSpaceRune, isDigitRune, Bool.or_eq_true, decide_eq_true_eq,
      Bool.decide_and, Bool.and_eq_true]
    constructor
    · rintro (h | h)
      · exact Or.inl h
      · exact Or.inr (Fin.ext h)
    · rintro (h | h)
      · exact Or.inl h
      · exact Or.inr (by rw [h]; rfl)
  simp only [key]

/-! ### Splitting and joining -/

theorem split_ne_nil (t : GoString) (sep : Byte) : Split t sep ≠ [] := by
  cases t with
  | nil => simp [Split]
  | cons b u =>
    simp only [Split]
    split
    · simp
    · split <;> simp

theorem split_exists_cons (t : GoString) (sep : Byte) : ∃ p ps, Split t sep = p :: ps := by
  have := split_ne_nil t sep
  cases h : Split t sep with
  | nil => exact absurd h this
  | cons p ps => exact ⟨p, ps, rfl⟩

theorem split_cons_sep (t : GoString) (sep : Byte) : Split (sep :: t) sep = [] :: Split t sep := by
  simp [Split]

theorem split_cons_ne (b : Byte) (t : GoString) (sep : Byte) (p : GoString) (ps : List GoString)
    (hb : b ≠ sep) (h : Split t sep = p :: ps) : Split (b :: t) sep = (b :: p) :: ps := by
  simp [Split, hb, h]

theorem intercalate_one (sep x : GoString) : List.intercalate sep [x] = x := by
  simp [List.intercalate, List.intersperse]

theorem intercalate_cons_cons (sep x y : GoString) (zs : List GoString) :
    List.intercalate sep (x :: y :: zs) = x ++ sep ++ List.intercalate sep (y :: zs) := by
  simp [List.intercalate, List.intersperse]

theorem intercalate_split (t : GoString) (sep : Byte) :
    List.intercalate [sep] (Split t sep) = t := by
  induction t with
  | nil => simp [Split, intercalate_one]
  | cons b u ih =>
    obtain ⟨p, ps, h⟩ := split_exists_cons u sep
    by_cases hb : b = sep
    · subst hb
      rw [split_cons_sep, h, intercalate_cons_cons, ← h, ih]
      simp
    · rw [split_cons_ne b u sep p ps hb h]
      rw [h] at ih
      cases ps with
      | nil =>
        rw [intercalate_one] at ih ⊢
        rw [ih]
      | cons q qs =>
        rw [intercalate_cons_cons] at ih ⊢
        rw [← ih]
        simp

theorem split_append_of_not_mem (seg t : GoString) (sep : Byte) (p : GoString)
    (ps : List GoString) (hseg : sep ∉ seg) (h : Split t sep = p :: ps) :
    Split (seg ++ t) sep = (seg ++ p) :: ps := by
  induction seg with
  | nil => simpa using h
  | cons b u ih =>
    have hb : b ≠ sep := fun hb => hseg (hb ▸ List.mem_cons_self _ _)
    have hu : sep ∉ u := fun hu => hseg (List.mem_cons_of_mem _ hu)
    rw [List.cons_append, split_cons_ne b (u ++ t) sep (u ++ p) ps hb (ih hu)]
    rfl

theorem split_intercalate (sep : Byte) (segs : List GoString) (hne : segs ≠ [])
    (h : ∀ seg ∈ segs, sep ∉ seg) : Split (List.intercalate [sep] segs) sep = segs := by
  induction segs with
  | nil => exact absurd rfl hne
  | cons x rest ih =>
    cases rest with
    | nil =>
      rw [intercalate_one]
      have := split_append_of_not_mem x [] sep [] [] (h x (List.mem_cons_self _ _)) (by simp [Split])
      simpa using this
    | cons y zs =>
      have ih' := ih (by simp) (fun seg hs => h seg (List.mem_cons_of_mem _ hs))
      rw [intercalate_cons_cons, List.append_assoc, List.singleton_append]
      have h1 : Split (sep :: List.intercalate [sep] (y :: zs)) sep = [] :: (y :: zs) := by
        rw [split_cons_sep, ih']
      have := split_append_of_not_mem x _ sep [] (y :: zs) (h x (List.mem_cons_self _ _)) h1
      simpa using this

theorem split_append_sep (u : GoString) (sep : Byte) :
    Split (u ++ [sep]) sep = Split u sep ++ [[]] := by
  induction u with
  | nil => simp [Split]
  | cons b v ih =>
    by_cases hb : b = sep
    · subst hb
      rw [List.cons_append, split_cons_sep, split_cons_sep, ih]
      rfl
    · obtain ⟨p, ps, h⟩ := split_exists_cons v sep
      have h' : Split (v ++ [sep]) sep = p :: (ps ++ [[]]) := by rw [ih, h]; rfl
      rw [List.cons_append, split_cons_ne b _ sep p _ hb h', split_cons_ne b _ sep p _ hb h]
      rfl

theorem nil_mem_split_tail_of_contains (t : GoString) (sep : Byte)
    (h : Contains t [sep, sep] = true) : [] ∈ (Split t sep).tail := by
  induction t with
  | nil => simp [Contains] at h
  | cons b u ih =>
    simp only [Contains, Bool.or_eq_true] at h
    rcases h with h | h
    · cases u with
      | nil => simp [List.isPrefixOf] at h
      | cons c v =>
        simp only [List.isPrefixOf_cons₂, List.isPrefixOf, Bool.and_true, Bool.and_eq_true,
          beq_iff_eq] at h
        obtain ⟨h1, h2⟩ := h
        subst h1
        subst h2
        rw [split_cons_sep, split_cons_sep]
        simp
    · have ih' := ih h
      by_cases hb : b = sep
      · subst hb
        rw [split_cons_sep]
        exact List.mem_of_mem_tail ih'
      · obtain ⟨p, ps, hp⟩ := split_exists_cons u sep
        rw [split_cons_ne b u sep p ps hb hp]
        rw [hp] at ih'
        simpa using ih'

theorem replaceAll_eq_flatten_split (t : GoString) (sep : Byte) :
    ReplaceAll t sep [] = (Split t sep).flatten := by
  induction t with
  | nil => simp [ReplaceAll, Split]
  | cons b u ih =>
    have hc : ReplaceAll (b :: u) sep [] = (if b = sep then [] else [b]) ++ ReplaceAll u sep [] := by
      simp [ReplaceAll, List.flatMap_cons]
    rw [hc, ih]
    by_cases hb : b = sep
    · subst hb
      rw [split_cons_sep]
      simp
    · obtain ⟨p, ps, hp⟩ := split_exists_cons u sep
      rw [split_cons_ne b u sep p ps hb hp, hp]
      simp [hb]

/-! ### The space validator -/

theorem validateSpaces_iff_split (s : GoString) :
    validateSpaces s = true ↔
      (∀ part ∈ Split (stripPlus s) 32, part ≠ [] ∧ IsDigits part) ∧
        (Split (stripPlus s) 32).length ≤ 3 := by
  simp only [validateSpaces, str_two_spaces, str_space, byte_space]
  constructor
  · intro h
    split_ifs at h with h1 h2 h3
    refine ⟨?_, by simpa using h⟩
    intro part hp
    have := (List.all_eq_true.mp h3) part hp
    simp only [ne_eq, Bool.and_eq_true, decide_eq_true_eq, Bool.decide_and, decide_not,
      Bool.not_eq_true', decide_eq_false_iff_not] at this
    exact ⟨this.1, ((matchDigits_iff part).mp this.2).2⟩
  · rintro ⟨hall, hlen⟩
    have hnil : [] ∉ Split (stripPlus s) 32 := fun hm => (hall [] hm).1 rfl
    have hc : ¬ Contains (stripPlus s) [32, 32] = true := fun hc =>
      hnil (List.mem_of_mem_tail (nil_mem_split_tail_of_contains _ _ hc))
    have hp : ¬ HasPrefix (stripPlus s) [32] = true := by
      intro hp
      obtain ⟨u, hu⟩ := (hasPrefix_iff _ _).mp hp
      apply hnil
      rw [← hu, List.singleton_append, split_cons_sep]
      exact List.mem_cons_self _ _
    have hs : ¬ HasSuffix (stripPlus s) [32] = true := by
      intro hs
      obtain ⟨u, hu⟩ := (hasSuffix_iff _ _).mp hs
      apply hnil
      rw [← hu, split_append_sep]
      simp
    have h3 : (Split (stripPlus s) 32).all
        (fun part => decide (part ≠ [] ∧ matchClassPlus isDigitRune part = true)) = true := by
      rw [List.all_eq_true]
      intro part hpart
      have := hall part hpart
      simp only [decide_eq_true_eq]
      exact ⟨this.1, (matchDigits_iff part).mpr this⟩
    simp only [hc, hp, hs, or_self, if_false, h3, if_true, decide_eq_true_eq]
    simpa using hlen

/-- The digit strings `segs` written one after the other with one space in between. -/
theorem validateSpaces_iff_segments (s : GoString) :
    validateSpaces s = true ↔
      ∃ segs : List GoString, stripPlus s = List.intercalate [32] segs ∧
        1 ≤ segs.length ∧ segs.length ≤ 3 ∧ ∀ seg ∈ segs, seg ≠ [] ∧ IsDigits seg := by
  rw [validateSpaces_iff_split]
  constructor
  · rintro ⟨hall, hlen⟩
    refine ⟨Split (stripPlus s) 32, (intercalate_split _ _).symm, ?_, hlen, hall⟩
    obtain ⟨p, ps, h⟩ := split_exists_cons (stripPlus s) 32
    simp [h]
  · rintro ⟨segs, hs, h1, h3, hall⟩
    have hne : segs ≠ [] := by
      intro h
      simp [h] at h1
    have hsplit : Split (stripPlus s) 32 = segs := by
      rw [hs]
      exact split_intercalate 32 segs hne
        (fun seg hseg => space_not_mem_of_isDigits seg (hall seg hseg).2)
    rw [hsplit]
    exact ⟨hall, h3⟩

theorem cleanNumber_of_validateSpaces (s : GoString) (h : validateSpaces s = true) :
    cleanNumber s ≠ [] ∧ IsDigits (cleanNumber s) := by
  obtain ⟨hall, -⟩ := (validateSpaces_iff_split s).mp h
  rw [cleanNumber_eq, replaceAll_eq_flatten_split]
  obtain ⟨p, ps, hp⟩ := split_exists_cons (stripPlus s) 32
  rw [hp] at hall ⊢
  constructor
  · have := (hall p (List.mem_cons_self _ _)).1
    simp [this]
  · intro b hb
    rw [List.mem_flatten] at hb
    obtain ⟨l, hl, hbl⟩ := hb
    exact (hall l hl).2 b hbl

/-! ### The format validator -/

theorem runesAux_of_ascii (n : Nat) : ∀ s : GoString, s.length ≤ n →
    (∀ b ∈ s, b.val < 0x80) → runesAux n s = s.map (fun b => b.val) := by
  induction n with
  | zero =>
    intro s hs _
    have : s = [] := List.length_eq_zero.mp (Nat.le_zero.mp hs)
    subst this
    rfl
  | succ n ih =>
    intro s hs ha
    cases s with
    | nil => rfl
    | cons b t =>
      have hb := ha b (List.mem_cons_self _ _)
      have ht : t.length ≤ n := by simpa using hs
      simp only [runesAux, decode_ascii b t hb, List.drop_succ_cons, List.drop_zero,
        List.map_cons, ih t ht (fun c hc => ha c (List.mem_cons_of_mem _ hc))]

theorem runes_of_ascii (s : GoString) (h : ∀ b ∈ s, b.val < 0x80) :
    runes s = s.map (fun b => b.val) :=
  runesAux_of_ascii s.length s (Nat.le_refl _) h

theorem validatePhoneNumberFormat_iff (s : GoString) :
    validatePhoneNumberFormat s = true ↔
      stripPlus s ≠ [] ∧ ¬ (∀ r ∈ runes (stripPlus s), IsSpace r = true) ∧
        ∀ b ∈ stripPlus s, (0x30 ≤ b.val ∧ b.val ≤ 0x39) ∨ b = (32 : Byte) := by
  simp only [validatePhoneNumberFormat, trimSpaceIsEmpty, List.all_eq_true]
  constructor
  · intro h
    split_ifs at h with h1
    rw [not_or] at h1
    exact ⟨h1.1, h1.2, ((matchDigitsSpaces_iff _).mp h).2⟩
  · rintro ⟨h1, h2, h3⟩
    rw [if_neg (not_or.mpr ⟨h1, h2⟩)]
    exact (matchDigitsSpaces_iff _).mpr ⟨h1, h3⟩

theorem trimSpace_of_isDigits (t : GoString) (hne : t ≠ []) (h : IsDigits t) :
    ¬ (∀ r ∈ runes t, IsSpace r = true) := by
  intro hall
  cases t with
  | nil => exact hne rfl
  | cons b u =>
    have hb := h b (List.mem_cons_self _ _)
    have hr : b.val ∈ runes (b :: u) := by
      simp only [runes, List.length_cons, runesAux, decode_ascii b u (by omega)]
      exact List.mem_cons_self _ _
    have := hall _ hr
    simp only [IsSpace, Bool.decide_or, Bool.decide_and, Bool.or_eq_true, Bool.and_eq_true,
      decide_eq_true_eq] at this
    omega

/-- A non-empty digit string, with or without a `+` in front, passes both validators and is
its own canonical digit string. -/
theorem validators_of_isDigits (s t : GoString) (hs : s = 43 :: t ∨ s = t)
    (hne : t ≠ []) (h : IsDigits t) :
    validatePhoneNumberFormat s = true ∧ validateSpaces s = true ∧ cleanNumber s = t := by
  have hstrip : stripPlus s = t := by
    rcases hs with hs | hs
    · rw [hs, stripPlus_cons_plus]
    · rw [hs, stripPlus_of_head t (plus_not_head_of_isDigits t h)]
  refine ⟨?_, ?_, ?_⟩
  · rw [validatePhoneNumberFormat_iff, hstrip]
    exact ⟨hne, trimSpace_of_isDigits t hne h, fun b hb => Or.inl (h b hb)⟩
  · rw [validateSpaces_iff_segments, hstrip]
    refine ⟨[t], (intercalate_one _ _).symm, by simp, by simp, ?_⟩
    intro seg hseg
    rw [List.mem_singleton] at hseg
    subst hseg
    exact ⟨hne, h⟩
  · rw [cleanNumber_eq, hstrip]
    exact replaceAll_of_not_mem t 32 (space_not_mem_of_isDigits t h)

theorem mem_intercalate_iff (sep : Byte) (segs : List GoString) (b : Byte) :
    b ∈ List.intercalate [sep] segs ↔
      (b = sep ∧ 2 ≤ segs.length) ∨ ∃ seg ∈ segs, b ∈ seg := by
  induction segs with
  | nil => simp [List.intercalate, List.intersperse]
  | cons x rest ih =>
    cases rest with
    | nil => simp [intercalate_one]
    | cons y zs =>
      rw [intercalate_cons_cons, List.mem_append, List.mem_append, ih]
      simp only [List.mem_singleton, List.length_cons, List.mem_cons, exists_eq_or_imp,
        List.not_mem_nil, or_false]
      constructor
      · rintro ((h | h) | (h | h))
        · exact Or.inr (Or.inl h)
        · exact Or.inl ⟨h, by omega⟩
        · exact Or.inl ⟨h.1, by omega⟩
        · exact Or.inr (Or.inr h)
      · rintro (h | h | h)
        · exact Or.inl (Or.inr h.1)
        · exact Or.inl (Or.inl h)
        · exact Or.inr (Or.inr h)

theorem validateFormat_of_validateSpaces (s : GoString) (h : validateSpaces s = true) :
    validatePhoneNumberFormat s = true := by
  obtain ⟨hall, -⟩ := (validateSpaces_iff_split s).mp h
  obtain ⟨p, ps, hp⟩ := split_exists_cons (stripPlus s) 32
  have hp1 := hall p (by rw [hp]; exact List.mem_cons_self _ _)
  have hbytes : ∀ b ∈ stripPlus s, (0x30 ≤ b.val ∧ b.val ≤ 0x39) ∨ b = (32 : Byte) := by
    intro b hb
    rw [← intercalate_split (stripPlus s) 32, mem_intercalate_iff] at hb
    rcases hb with hb | ⟨l, hl, hbl⟩
    · exact Or.inr hb.1
    · exact Or.inl ((hall l hl).2 b hbl)
  have hne : stripPlus s ≠ [] := by
    intro h0
    rw [h0] at hp
    simp only [Split, List.cons.injEq] at hp
    exact hp1.1 hp.1.symm
  rw [validatePhoneNumberFormat_iff]
  refine ⟨hne, ?_, hbytes⟩
  intro hsp
  rw [runes_of_ascii _ (fun b hb => by
    rcases hbytes b hb with hd | hd
    · omega
    · rw [hd]; decide)] at hsp
  obtain ⟨b, u, hpb⟩ := List.exists_cons_of_ne_nil hp1.1
  have hbp : b ∈ p := by rw [hpb]; exact List.mem_cons_self _ _
  have hbs : b ∈ stripPlus s := by
    rw [← intercalate_split (stripPlus s) 32, hp, mem_intercalate_iff]
    exact Or.inr ⟨p, List.mem_cons_self _ _, hbp⟩
  have hd := hp1.2 b hbp
  have := hsp b.val (List.mem_map.mpr ⟨b, hbs, rfl⟩)
  simp only [IsSpace, Bool.decide_or, Bool.decide_and, Bool.or_eq_true, Bool.and_eq_true,
    decide_eq_true_eq] at this
  omega

/-! ### The dial-code extractor -/

theorem findCountry_of_unique (order : List (GoString × GoString)) (dc country : GoString)
    (hmem : (country, dc) ∈ order) (huniq : ∀ e ∈ order, e.2 = dc → e.1 = country) :
    findCountry order dc = some country := by
  induction order with
  | nil => simp at hmem
  | cons e rest ih =>
    obtain ⟨k, c⟩ := e
    by_cases hc : c = dc
    · have := huniq (k, c) (List.mem_cons_self _ _) hc
      simp only at this
      simp [findCountry, hc, this]
    · have hmem' : (country, dc) ∈ rest := by
        rcases List.mem_cons.mp hmem with h | h
        · exact absurd (congrArg Prod.snd h).symm hc
        · exact h
      simp only [findCountry, hc, if_false]
      exact ih hmem' (fun e he => huniq e (List.mem_cons_of_mem _ he))

set_option maxRecDepth 100000 in
theorem dialCodes_resolve : ∀ dc ∈ dialCodes, dc ≠ str "1" →
    ∃ e ∈ CountryCodeMap, e.2 = dc ∧ ∀ e' ∈ CountryCodeMap, e'.2 = dc → e'.1 = e.1 := by
  decide

theorem findCountry_perm (order : List (GoString × GoString))
    (hperm : order.Perm CountryCodeMap) (dc : GoString) (hdc : dc ∈ dialCodes)
    (h1 : dc ≠ str "1") : findCountry order dc = findCountry CountryCodeMap dc := by
  obtain ⟨e, he, hed, huniq⟩ := dialCodes_resolve dc hdc h1
  obtain ⟨k, c⟩ := e
  simp only at hed huniq
  subst hed
  rw [findCountry_of_unique CountryCodeMap c k he huniq]
  exact findCountry_of_unique order c k (hperm.mem_iff.mpr he)
    (fun e' he' => huniq e' (hperm.mem_iff.mp he'))

theorem extractLoop_perm (order : List (GoString × GoString))
    (hperm : order.Perm CountryCodeMap) (clean : GoString) (dcs : List GoString)
    (hsub : ∀ dc ∈ dcs, dc ∈ dialCodes) :
    extractLoop order clean dcs = extractLoop CountryCodeMap clean dcs := by
  induction dcs with
  | nil => rfl
  | cons dc more ih =>
    have ih' := ih (fun d hd => hsub d (List.mem_cons_of_mem _ hd))
    simp only [extractLoop, ih']
    by_cases h1 : dc = str "1"
    · simp [h1]
    · rw [findCountry_perm order hperm dc (hsub dc (List.mem_cons_self _ _)) h1]

/-- The enumeration order of the map does not change what the extractor returns. -/
theorem extract_perm (order : List (GoString × GoString))
    (hperm : order.Perm CountryCodeMap) (p : GoString) :
    extractCountryCodeFromNumber order p = extractCountryCodeFromNumber CountryCodeMap p :=
  extractLoop_perm order hperm (cleanNumber p) dialCodes (fun _ h => h)

theorem extractLoop_resolved (clean : GoString) :
    extractLoop CountryCodeMap clean dialCodes = extractResolved clean := by
  have e1 : findCountry CountryCodeMap (str "351") = some (str "PT") := by decide
  have e2 : findCountry CountryCodeMap (str "52") = some (str "MX") := by decide
  have e3 : findCountry CountryCodeMap (str "44") = some (str "GB") := by decide
  have e4 : findCountry CountryCodeMap (str "49") = some (str "DE") := by decide
  have e5 : findCountry CountryCodeMap (str "39") = some (str "IT") := by decide
  have e6 : findCountry CountryCodeMap (str "81") = some (str "JP") := by decide
  have e7 : findCountry CountryCodeMap (str "34") = some (str "ES") := by decide
  have e8 : findCountry CountryCodeMap (str "33") = some (str "FR") := by decide
  have n1 : ¬ str "351" = str "1" := by decide
  have n2 : ¬ str "52" = str "1" := by decide
  have n3 : ¬ str "44" = str "1" := by decide
  have n4 : ¬ str "49" = str "1" := by decide
  have n5 : ¬ str "39" = str "1" := by decide
  have n6 : ¬ str "81" = str "1" := by decide
  have n7 : ¬ str "34" = str "1" := by decide
  have n8 : ¬ str "33" = str "1" := by decide
  simp only [dialCodes, extractLoop, extractResolved, e1, e2, e3, e4, e5, e6, e7, e8, n1, n2,
    n3, n4, n5, n6, n7, n8, if_false, if_true]

theorem extract_eq_resolved (order : List (GoString × GoString))
    (hperm : order.Perm CountryCodeMap) (p : GoString) :
    extractCountryCodeFromNumber order p = extractResolved (cleanNumber p) := by
  rw [extract_perm order hperm p]
  exact extractLoop_resolved (cleanNumber p)

theorem str_351 : str "351" = [(51 : Byte), 53, 49] := by decide

theorem str_52 : str "52" = [(53 : Byte), 50] := by decide

theorem str_44 : str "44" = [(52 : Byte), 52] := by decide

theorem str_49 : str "49" = [(52 : Byte), 57] := by decide

theorem str_39 : str "39" = [(51 : Byte), 57] := by decide

theorem str_81 : str "81" = [(56 : Byte), 49] := by decide

theorem str_34 : str "34" = [(51 : Byte), 52] := by decide

theorem str_33 : str "33" = [(51 : Byte), 51] := by decide

theorem str_1 : str "1" = [(49 : Byte)] := by decide

theorem codes_mem_dialCodes : ∀ e ∈ CountryCodeMap, e.2 ∈ dialCodes := by decide

theorem dialCodes_mem_codes : ∀ dc ∈ dialCodes, ∃ e ∈ CountryCodeMap, e.2 = dc := by decide

/-- What the resolved extractor returns, case by case. -/
theorem extractResolved_cases (clean : GoString) (r : GoString × GoString × Bool)
    (hr : extractResolved clean = r) :
    (r = ([], [], false) ∧ ∀ dc ∈ dialCodes, ¬ dc <+: clean) ∨
    ∃ country dc, r = (country, dc, true) ∧ dc <+: clean ∧
      dc ∈ dialCodes ∧ dc ≠ [] ∧ country ≠ [] ∧ country ≠ str "CA" ∧
      mapGet CountryCodeMap country = some dc ∧
      (dc = str "1" → country = str "US") ∧
      ∀ dc' ∈ dialCodes, dc.length < dc'.length → ¬ dc' <+: clean := by
  unfold extractResolved at hr
  simp only [hasPrefix_iff] at hr
  split_ifs at hr with h1 h2 h3 h4 h5 h6 h7 h8 h9
  · subst hr
    have hlong : ∀ dc' ∈ dialCodes, (str "351").length < dc'.length → ¬ dc' <+: clean := by
      simp only [dialCodes, str_351, str_52, str_44, str_49, str_39, str_81, str_34, str_33, str_1, List.forall_mem_cons, List.length_cons, List.length_nil,
        List.not_mem_nil, false_imp_iff, implies_true, and_true]
      refine ⟨?_, ?_, ?_, ?_, ?_, ?_, ?_, ?_, ?_⟩ <;> intro hlt <;>
        exact absurd hlt (by decide)
    exact Or.inr ⟨str "PT", str "351", rfl, h1, by decide, by decide, by decide, by decide,
      by decide, by decide, hlong⟩
  · subst hr
    have hlong : ∀ dc' ∈ dialCodes, (str "52").length < dc'.length → ¬ dc' <+: clean := by
      simp only [dialCodes, str_351, str_52, str_44, str_49, str_39, str_81, str_34, str_33, str_1, List.forall_mem_cons, List.length_cons, List.length_nil,
        List.not_mem_nil, false_imp_iff, implies_true, and_true]
      refine ⟨?_, ?_, ?_, ?_, ?_, ?_, ?_, ?_, ?_⟩ <;> intro hlt <;>
        first
          | exact absurd hlt (by decide)
          | (simp only [dialCodes, str_351, str_52, str_44, str_49, str_39, str_81, str_34, str_33, str_1] at *; assumption)
    exact Or.inr ⟨str "MX", str "52", rfl, h2, by decide, by decide, by decide, by decide,
      by decide, by decide, hlong⟩
  · subst hr
    have hlong : ∀ dc' ∈ dialCodes, (str "44").length < dc'.length → ¬ dc' <+: clean := by
      simp only [dialCodes, str_351, str_52, str_44, str_49, str_39, str_81, str_34, str_33, str_1, List.forall_mem_cons, List.length_cons, List.length_nil,
        List.not_mem_nil, false_imp_iff, implies_true, and_true]
      refine ⟨?_, ?_, ?_, ?_, ?_, ?_, ?_, ?_, ?_⟩ <;> intro hlt <;>
        first
          | exact absurd hlt (by decide)
          | (simp only [dialCodes, str_351, str_52, str_44, str_49, str_39, str_81, str_34, str_33, str_1] at *; assumption)
    exact Or.inr ⟨str "GB", str "44", rfl, h3, by decide, by decide, by decide, by decide,
      by decide, by decide, hlong⟩
  · subst hr
    have hlong : ∀ dc' ∈ dialCodes, (str "49").length < dc'.length → ¬ dc' <+: clean := by
      simp only [dialCodes, str_351, str_52, str_44, str_49, str_39, str_81, str_34, str_33, str_1, List.forall_mem_cons, List.length_cons, List.length_nil,
        List.not_mem_nil, false_imp_iff, implies_true, and_true]
      refine ⟨?_, ?_, ?_, ?_, ?_, ?_, ?_, ?_, ?_⟩ <;> intro hlt <;>
        first
          | exact absurd hlt (by decide)
          | (simp only [dialCodes, str_351, str_52, str_44, str_49, str_39, str_81, str_34, str_33, str_1] at *; assumption)
    exact Or.inr ⟨str "DE", str "49", rfl, h4, by decide, by decide, by decide, by decide,
      by decide, by decide, hlong⟩
  · subst hr
    have hlong : ∀ dc' ∈ dialCodes, (str "39").length < dc'.length → ¬ dc' <+: clean := by
      simp only [dialCodes, str_351, str_52, str_44, str_49, str_39, str_81, str_34, str_33, str_1, List.forall_mem_cons, List.length_cons, List.length_nil,
        List.not_mem_nil, false_imp_iff, implies_true, and_true]
      refine ⟨?_, ?_, ?_, ?_, ?_, ?_, ?_, ?_, ?_⟩ <;> intro hlt <;>
        first
          | exact absurd hlt (by decide)
          | (simp only [dialCodes, str_351, str_52, str_44, str_49, str_39, str_81, str_34, str_33, str_1] at *; assumption)
    exact Or.inr ⟨str "IT", str "39", rfl, h5, by decide, by decide, by decide, by decide,
      by decide, by decide, hlong⟩
  · subst hr
    have hlong : ∀ dc' ∈ dialCodes, (str "81").length < dc'.length → ¬ dc' <+: clean := by
      simp only [dialCodes, str_351, str_52, str_44, str_49, str_39, str_81, str_34, str_33, str_1, List.forall_mem_cons, List.length_cons, List.length_nil,
        List.not_mem_nil, false_imp_iff, implies_true, and_true]
      refine ⟨?_, ?_, ?_, ?_, ?_, ?_, ?_, ?_, ?_⟩ <;> intro hlt <;>
        first
          | exact absurd hlt (by decide)
          | (simp only [dialCodes, str_351, str_52, str_44, str_49, str_39, str_81, str_34, str_33, str_1] at *; assumption)
    exact Or.inr ⟨str "JP", str "81", rfl, h6, by decide, by decide, by decide, by decide,
      by decide, by decide, hlong⟩
  · subst hr
    have hlong : ∀ dc' ∈ dialCodes, (str "34").length < dc'.length → ¬ dc' <+: clean := by
      simp only [dialCodes, str_351, str_52, str_44, str_49, str_39, str_81, str_34, str_33, str_1, List.forall_mem_cons, List.length_cons, List.length_nil,
        List.not_mem_nil, false_imp_iff, implies_true, and_true]
      refine ⟨?_, ?_, ?_, ?_, ?_, ?_, ?_, ?_, ?_⟩ <;> intro hlt <;>
        first
          | exact absurd hlt (by decide)
          | (simp only [dialCodes, str_351, str_52, str_44, str_49, str_39, str_81, str_34, str_33, str_1] at *; assumption)
    exact Or.inr ⟨str "ES", str "34", rfl, h7, by decide, by decide, by decide, by decide,
      by decide, by decide, hlong⟩
  · subst hr
    have hlong : ∀ dc' ∈ dialCodes, (str "33").length < dc'.length → ¬ dc' <+: clean := by
      simp only [dialCodes, str_351, str_52, str_44, str_49, str_39, str_81, str_34, str_33, str_1, List.forall_mem_cons, List.length_cons, List.length_nil,
        List.not_mem_nil, false_imp_iff, implies_true, and_true]
      refine ⟨?_, ?_, ?_, ?_, ?_, ?_, ?_, ?_, ?_⟩ <;> intro hlt <;>
        first
          | exact absurd hlt (by decide)
          | (simp only [dialCodes, str_351, str_52, str_44, str_49, str_39, str_81, str_34, str_33, str_1] at *; assumption)
    exact Or.inr ⟨str "FR", str "33", rfl, h8, by decide, by decide, by decide, by decide,
      by decide, by decide, hlong⟩
  · subst hr
    have hlong : ∀ dc' ∈ dialCodes, (str "1").length < dc'.length → ¬ dc' <+: clean := by
      simp only [dialCodes, str_351, str_52, str_44, str_49, str_39, str_81, str_34, str_33, str_1, List.forall_mem_cons, List.length_cons, List.length_nil,
        List.not_mem_nil, false_imp_iff, implies_true, and_true]
      refine ⟨?_, ?_, ?_, ?_, ?_, ?_, ?_, ?_, ?_⟩ <;> intro hlt <;>
        first
          | exact absurd hlt (by decide)
          | (simp only [dialCodes, str_351, str_52, str_44, str_49, str_39, str_81, str_34, str_33, str_1] at *; assumption)
    exact Or.inr ⟨str "US", str "1", rfl, h9, by decide, by decide, by decide, by decide,
      by decide, by decide, hlong⟩
  · subst hr
    refine Or.inl ⟨rfl, ?_⟩
    simp only [dialCodes, List.forall_mem_cons, List.not_mem_nil, false_imp_iff, implies_true,
      and_true]
    exact ⟨h1, h2, h3, h4, h5, h6, h7, h8, h9⟩

theorem dialCodes_prefix_free : ∀ a ∈ dialCodes, ∀ b ∈ dialCodes, a <+: b → a = b := by
  decide

/-- Two dial codes that both start `clean` are the same dial code. -/
theorem dialCode_unique (clean a b : GoString) (ha : a ∈ dialCodes) (hb : b ∈ dialCodes)
    (hac : a <+: clean) (hbc : b <+: clean) : a = b := by
  rcases List.prefix_or_prefix_of_prefix hac hbc with h | h
  · exact dialCodes_prefix_free a ha b hb h
  · exact (dialCodes_prefix_free b hb a ha h).symm

/-! ### The two processing functions -/

theorem split_eval (rest : GoString) (N : Int) :
    (if N > 0 ∧ len rest > N then
        match sliceTo rest N, sliceFrom rest N with
        | some areaCode, some localNumber => some (areaCode, localNumber)
        | _, _ => none
      else some ([], rest)) = some (splitPair rest N) := by
  unfold splitPair
  by_cases h : N > 0 ∧ len rest > N
  · have h1 : (0 : Int) ≤ N ∧ N ≤ len rest := ⟨by omega, by omega⟩
    simp only [h, and_self, if_true, sliceTo, sliceFrom, h1]
  · simp only [h, if_false]

theorem mapGet_mem {β : Type} (m : List (GoString × β)) (k : GoString) (v : β)
    (h : mapGet m k = some v) : (k, v) ∈ m := by
  induction m with
  | nil => simp [mapGet] at h
  | cons e rest ih =>
    obtain ⟨k', v'⟩ := e
    simp only [mapGet] at h
    split_ifs at h with hk
    · simp only [Option.some.injEq] at h
      rw [hk, h]
      exact List.mem_cons_self _ _
    · exact List.mem_cons_of_mem _ (ih h)

theorem areaCode_of_countryCode : ∀ e ∈ CountryCodeMap, (mapGet AreaCodeMap e.1).isSome = true := by
  decide

theorem areaCode_pos : ∀ e ∈ AreaCodeMap, 0 < e.2 := by
  decide

theorem areaCode_exists (country d : GoString) (h : mapGet CountryCodeMap country = some d) :
    ∃ N, mapGet AreaCodeMap country = some N ∧ 0 < N := by
  have h1 := areaCode_of_countryCode _ (mapGet_mem _ _ _ h)
  obtain ⟨N, hN⟩ := Option.isSome_iff_exists.mp h1
  exact ⟨N, hN, areaCode_pos _ (mapGet_mem _ _ _ hN)⟩

theorem processWith_eval (p d country : GoString) (N : Int)
    (hd : d.length ≤ (cleanNumber p).length) (hN : mapGet AreaCodeMap country = some N) :
    processNumberWithCountryCode p d country =
      some (some ⟨str "+" ++ d ++ (cleanNumber p).drop d.length, country,
        (splitPair ((cleanNumber p).drop d.length) N).1,
        (splitPair ((cleanNumber p).drop d.length) N).2⟩, none) := by
  have h1 : (0 : Int) ≤ len d ∧ len d ≤ len (cleanNumber p) := by
    simp only [len]
    omega
  have hslice : sliceFrom (cleanNumber p) (len d) = some ((cleanNumber p).drop d.length) := by
    simp only [sliceFrom, h1, and_self, if_true]
    simp [len]
  simp only [processNumberWithCountryCode, hslice, hN, split_eval]

theorem processWithout_eval (p c d : GoString) (N : Int) (hc : c ≠ [])
    (hv : validateCountryCodeMeetsISO_3166_1_alpha_2 c = true)
    (hd : mapGet CountryCodeMap (ToUpper c) = some d)
    (hN : mapGet AreaCodeMap (ToUpper c) = some N) :
    processNumberWithoutCountryCode p c =
      some (some ⟨str "+" ++ d ++ cleanNumber p, ToUpper c,
        (splitPair (cleanNumber p) N).1, (splitPair (cleanNumber p) N).2⟩, none) := by
  simp only [processNumberWithoutCountryCode, hc, if_false, hv, Bool.not_true, hd, hN,
    split_eval]
  simp

/-- A successful return of the explicit-country branch determines how it was computed. -/
theorem processWithout_success (p c : GoString) (r : PhoneNumberResponse)
    (h : processNumberWithoutCountryCode p c = some (some r, none)) :
    c ≠ [] ∧ validateCountryCodeMeetsISO_3166_1_alpha_2 c = true ∧
      ∃ d N, mapGet CountryCodeMap (ToUpper c) = some d ∧
        mapGet AreaCodeMap (ToUpper c) = some N ∧
        r = ⟨str "+" ++ d ++ cleanNumber p, ToUpper c,
          (splitPair (cleanNumber p) N).1, (splitPair (cleanNumber p) N).2⟩ := by
  by_cases hc : c = []
  · simp [processNumberWithoutCountryCode, hc] at h
  by_cases hv : validateCountryCodeMeetsISO_3166_1_alpha_2 c = true
  swap
  · simp [processNumberWithoutCountryCode, hc, hv] at h
  cases hd : mapGet CountryCodeMap (ToUpper c) with
  | none => simp [processNumberWithoutCountryCode, hc, hv, hd] at h
  | some d =>
    cases hN : mapGet AreaCodeMap (ToUpper c) with
    | none => simp [processNumberWithoutCountryCode, hc, hv, hd, hN] at h
    | some N =>
      rw [processWithout_eval p c d N hc hv hd hN] at h
      simp only [Option.some.injEq, Prod.mk.injEq, and_true] at h
      exact ⟨hc, hv, d, N, rfl, rfl, h.symm⟩

/-! ### The parser -/

theorem parse_success_valid (order : List (GoString × GoString)) (p c : GoString)
    (r : PhoneNumberResponse) (h : parsePhoneNumber order p c = some (some r, none)) :
    validateSpaces p = true := by
  by_cases hf : validatePhoneNumberFormat p = true
  · by_cases hv : validateSpaces p = true
    · exact hv
    · simp [parsePhoneNumber, hf, hv] at h
  · simp [parsePhoneNumber, hf] at h

theorem parse_found (order : List (GoString × GoString)) (hperm : order.Perm CountryCodeMap)
    (p c country d : GoString) (hv : validateSpaces p = true)
    (hext : extractResolved (cleanNumber p) = (country, d, true)) :
    ∃ N, mapGet AreaCodeMap country = some N ∧ 0 < N ∧
      parsePhoneNumber order p c =
        some (some ⟨str "+" ++ d ++ (cleanNumber p).drop d.length, country,
          (splitPair ((cleanNumber p).drop d.length) N).1,
          (splitPair ((cleanNumber p).drop d.length) N).2⟩, none) := by
  rcases extractResolved_cases (cleanNumber p) _ hext with ⟨hr, -⟩ | ⟨country', dc, hr, hpre,
    -, -, -, -, hmap, -, -⟩
  · simp at hr
  · simp only [Prod.mk.injEq, and_true] at hr
    obtain ⟨rfl, rfl⟩ := hr
    obtain ⟨N, hN, hpos⟩ := areaCode_exists country d hmap
    refine ⟨N, hN, hpos, ?_⟩
    have hf := validateFormat_of_validateSpaces p hv
    simp only [parsePhoneNumber, hf, hv, Bool.not_true, Bool.false_eq_true, if_false,
      extract_eq_resolved order hperm p, hext]
    exact processWith_eval p d country N hpre.length_le hN

theorem parse_not_found (order : List (GoString × GoString))
    (hperm : order.Perm CountryCodeMap) (p c : GoString) (hv : validateSpaces p = true)
    (hext : extractResolved (cleanNumber p) = ([], [], false)) :
    parsePhoneNumber order p c = processNumberWithoutCountryCode p c := by
  have hf := validateFormat_of_validateSpaces p hv
  simp only [parsePhoneNumber, hf, hv, Bool.not_true, Bool.false_eq_true, if_false,
    extract_eq_resolved order hperm p, hext]

/-- How a successful parse was computed: through the embedded dial code or through the
explicit country code. -/
theorem parse_success_cases (order : List (GoString × GoString))
    (hperm : order.Perm CountryCodeMap) (p c : GoString) (r : PhoneNumberResponse)
    (h : parsePhoneNumber order p c = some (some r, none)) :
    validateSpaces p = true ∧
    ((∃ country d N, extractResolved (cleanNumber p) = (country, d, true) ∧
        mapGet AreaCodeMap country = some N ∧ 0 < N ∧
        r = ⟨str "+" ++ d ++ (cleanNumber p).drop d.length, country,
          (splitPair ((cleanNumber p).drop d.length) N).1,
          (splitPair ((cleanNumber p).drop d.length) N).2⟩) ∨
     (∃ d N, extractResolved (cleanNumber p) = ([], [], false) ∧ c ≠ [] ∧
        validateCountryCodeMeetsISO_3166_1_alpha_2 c = true ∧
        mapGet CountryCodeMap (ToUpper c) = some d ∧
        mapGet AreaCodeMap (ToUpper c) = some N ∧ 0 < N ∧
        r = ⟨str "+" ++ d ++ cleanNumber p, ToUpper c,
          (splitPair (cleanNumber p) N).1, (splitPair (cleanNumber p) N).2⟩)) := by
  have hv := parse_success_valid order p c r h
  refine ⟨hv, ?_⟩
  rcases extractResolved_cases (cleanNumber p) _ rfl with ⟨hr, -⟩ | ⟨country, dc, hr, -⟩
  · right
    rw [parse_not_found order hperm p c hv hr] at h
    obtain ⟨hc, hvc, d, N, hd, hN, hrr⟩ := processWithout_success p c r h
    exact ⟨d, N, hr, hc, hvc, hd, hN, areaCode_pos _ (mapGet_mem _ _ _ hN), hrr⟩
  · left
    obtain ⟨N, hN, hpos, hp⟩ := parse_found order hperm p c country dc hv hr
    rw [hp] at h
    simp only [Option.some.injEq, Prod.mk.injEq, and_true] at h
    exact ⟨country, dc, N, hr, hN, hpos, h.symm⟩

theorem splitPair_spec (rest : GoString) (N : Int) (hN : 0 < N) :
    (len rest > N → (splitPair rest N).1 = rest.take N.toNat ∧
      (splitPair rest N).2 = rest.drop N.toNat) ∧
    (len rest ≤ N → (splitPair rest N).1 = [] ∧ (splitPair rest N).2 = rest) := by
  unfold splitPair
  constructor
  · intro h
    have : N > 0 ∧ len rest > N := ⟨hN, h⟩
    simp only [this, and_self, if_true]
  · intro h
    have : ¬ (N > 0 ∧ len rest > N) := by omega
    simp only [this, if_false, and_self]

theorem drop_plus_dial (d rest : GoString) :
    (str "+" ++ d ++ rest).drop (1 + d.length) = rest := by
  rw [str_plus, List.append_assoc, List.singleton_append, Nat.add_comm, List.drop_succ_cons,
    List.drop_left]

theorem validateCountryCode_of_letters (a b : Byte) (ha : IsAsciiLetter a)
    (hb : IsAsciiLetter b) : validateCountryCodeMeetsISO_3166_1_alpha_2 [a, b] = true := by
  unfold IsAsciiLetter at ha hb
  have ha' : a.val < 0x80 := by omega
  have hb' : b.val < 0x80 := by omega
  simp only [validateCountryCodeMeetsISO_3166_1_alpha_2, len, List.length_cons, List.length_nil,
    runes, runesAux, decode_ascii a [b] ha', decode_ascii b [] hb', List.drop_succ_cons,
    List.drop_zero, List.all_cons, List.all_nil, Bool.and_true]
  simp [ha, hb]

theorem stripPlus_intercalate (plus : Bool) (segs : List GoString)
    (hlen1 : 1 ≤ segs.length) (hsegs : ∀ seg ∈ segs, seg ≠ [] ∧ IsDigits seg) :
    stripPlus ((if plus = true then str "+" else []) ++ List.intercalate [32] segs)
      = List.intercalate [32] segs := by
  cases plus with
  | true => simp only [if_true, str_plus, List.singleton_append, stripPlus_cons_plus]
  | false =>
    simp only [Bool.false_eq_true, if_false, List.nil_append]
    apply stripPlus_of_head
    cases segs with
    | nil => simp at hlen1
    | cons x rest =>
      obtain ⟨hx, hdx⟩ := hsegs x (List.mem_cons_self _ _)
      obtain ⟨b, u, hxb⟩ := List.exists_cons_of_ne_nil hx
      have hb := hdx b (by rw [hxb]; exact List.mem_cons_self _ _)
      have hne : b ≠ (43 : Byte) := by
        intro h43
        rw [h43] at hb
        exact absurd hb (by decide)
      cases rest with
      | nil =>
        rw [intercalate_one, hxb]
        simpa using hne
      | cons y zs =>
        rw [intercalate_cons_cons, hxb]
        simpa using hne

set_option maxRecDepth 100000 in
theorem codes_isDigits : ∀ e ∈ CountryCodeMap, e.2 ≠ [] ∧ IsDigits e.2 := by
  decide

set_option maxRecDepth 100000 in
theorem country_of_code_unique : ∀ e ∈ CountryCodeMap, ∀ e' ∈ CountryCodeMap,
    e.2 = e'.2 → e.1 ≠ str "CA" → e'.1 ≠ str "CA" → e.1 = e'.1 := by
  decide

theorem isDigits_append (a b : GoString) (ha : IsDigits a) (hb : IsDigits b) :
    IsDigits (a ++ b) := by
  intro x hx
  rcases List.mem_append.mp hx with h | h
  · exact ha x h
  · exact hb x h

/-- Parsing "+" followed by a dial code of the table and a digit string: the dial code is
found again, and the country is the one the extractor resolves it to. -/
theorem reparse (order : List (GoString × GoString)) (hperm : order.Perm CountryCodeMap)
    (d rest : GoString) (hd : d ∈ dialCodes) (hdd : IsDigits d) (hne : d ≠ [])
    (hrest : IsDigits rest) :
    ∃ country N, mapGet CountryCodeMap country = some d ∧ country ≠ str "CA" ∧
      (d = str "1" → country = str "US") ∧ mapGet AreaCodeMap country = some N ∧
      parsePhoneNumber order (str "+" ++ d ++ rest) [] =
        some (some ⟨str "+" ++ d ++ rest, country, (splitPair rest N).1,
          (splitPair rest N).2⟩, none) := by
  have hX : IsDigits (d ++ rest) := isDigits_append d rest hdd hrest
  have hXne : d ++ rest ≠ [] := by simp [hne]
  have hq : str "+" ++ d ++ rest = 43 :: (d ++ rest) := by
    rw [str_plus, List.append_assoc, List.singleton_append]
  obtain ⟨-, hv, hclean⟩ := validators_of_isDigits (str "+" ++ d ++ rest) (d ++ rest)
    (Or.inl hq) hXne hX
  rcases extractResolved_cases (d ++ rest) _ rfl with ⟨-, hnone⟩ | ⟨country, dc, hr, hpre,
    hmem, -, -, hca, hmap, hus, -⟩
  · exact absurd (List.prefix_append d rest) (hnone d hd)
  · have hdc : dc = d := dialCode_unique (d ++ rest) dc d hmem hd hpre (List.prefix_append d rest)
    subst hdc
    rw [← hclean] at hr
    obtain ⟨N, hN, -, hparse⟩ := parse_found order hperm (str "+" ++ dc ++ rest) [] country dc hv hr
    rw [hclean, List.drop_left] at hparse
    exact ⟨country, N, hmap, hca, hus, hN, hparse⟩

/-! ## The claims -/

/-- C4. Dial-code tie-break: whenever the canonical digit string of the input starts with
"1", the extractor returns ("US", "1", true); it returns "CA" for no input, although CA
maps to the dial code "1" too. This holds for every enumeration order of the map. -/
theorem C4_dial_code_one_resolves_to_US (order : List (GoString × GoString))
    (hperm : order.Perm CountryCodeMap) :
    (∀ p : GoString, str "1" <+: cleanNumber p →
      extractCountryCodeFromNumber order p = (str "US", str "1", true)) ∧
    (∀ p : GoString, (extractCountryCodeFromNumber order p).1 ≠ str "CA") ∧
    mapGet CountryCodeMap (str "CA") = some (str "1") := by
  refine ⟨?_, ?_, by decide⟩
  · intro p hp
    rw [extract_eq_resolved order hperm p]
    rcases extractResolved_cases (cleanNumber p) _ rfl with ⟨-, hnone⟩ | ⟨country, dc, hr, hpre,
      hmem, -, -, -, -, hus, -⟩
    · exact absurd hp (hnone _ (by decide))
    · have hdc : dc = str "1" := dialCode_unique (cleanNumber p) dc (str "1") hmem (by decide) hpre hp
      rw [hr, hus hdc, hdc]
  · intro p
    rw [extract_eq_resolved order hperm p]
    rcases extractResolved_cases (cleanNumber p) _ rfl with ⟨hr, -⟩ | ⟨country, dc, hr, -,
      -, -, -, hca, -, -, -⟩
    · rw [hr]
      decide
    · rw [hr]
      exact hca

theorem C4_witness :
    extractCountryCodeFromNumber CountryCodeMap.reverse (str "+1 212 569 0123")
      = (str "US", str "1", true) :=
  (C4_dial_code_one_resolves_to_US CountryCodeMap.reverse (List.reverse_perm _)).1
    (str "+1 212 569 0123") (by decide)

/-- C5. Longest-prefix match: whenever the extractor returns (country, d, true), d is a
prefix of the canonical digit string, the table maps country to d, and no dial code of the
table that is strictly longer than d is a prefix of the canonical digit string. -/
theorem C5_longest_prefix_match (order : List (GoString × GoString))
    (hperm : order.Perm CountryCodeMap) (p country d : GoString)
    (h : extractCountryCodeFromNumber order p = (country, d, true)) :
    d <+: cleanNumber p ∧ mapGet CountryCodeMap country = some d ∧
      ∀ e ∈ CountryCodeMap, d.length < e.2.length → ¬ e.2 <+: cleanNumber p := by
  rw [extract_eq_resolved order hperm p] at h
  rcases extractResolved_cases (cleanNumber p) _ h with ⟨hr, -⟩ | ⟨country', dc, hr, hpre,
    -, -, -, -, hmap, -, hlong⟩
  · simp at hr
  · simp only [Prod.mk.injEq, and_true] at hr
    obtain ⟨rfl, rfl⟩ := hr
    exact ⟨hpre, hmap, fun e he => hlong e.2 (codes_mem_dialCodes e he)⟩

theorem C5_witness :
    str "351" <+: cleanNumber (str "+351 21 0942000") ∧
      mapGet CountryCodeMap (str "PT") = some (str "351") ∧
      ∀ e ∈ CountryCodeMap, (str "351").length < e.2.length →
        ¬ e.2 <+: cleanNumber (str "+351 21 0942000") :=
  C5_longest_prefix_match CountryCodeMap.reverse (List.reverse_perm _)
    (str "+351 21 0942000") (str "PT") (str "351") (by decide)

/-- C6. Not-found signal: the extractor returns found = false exactly when no dial code of
the table is a prefix of the canonical digit string, and then both returned strings are
empty; when found = true both returned strings are non-empty. -/
theorem C6_not_found_signal (order : List (GoString × GoString))
    (hperm : order.Perm CountryCodeMap) (p : GoString) :
    ((extractCountryCodeFromNumber order p).2.2 = false ↔
      ∀ e ∈ CountryCodeMap, ¬ e.2 <+: cleanNumber p) ∧
    ((extractCountryCodeFromNumber order p).2.2 = false →
      (extractCountryCodeFromNumber order p).1 = [] ∧
        (extractCountryCodeFromNumber order p).2.1 = []) ∧
    ((extractCountryCodeFromNumber order p).2.2 = true →
      (extractCountryCodeFromNumber order p).1 ≠ [] ∧
        (extractCountryCodeFromNumber order p).2.1 ≠ []) := by
  rw [extract_eq_resolved order hperm p]
  rcases extractResolved_cases (cleanNumber p) _ rfl with ⟨hr, hnone⟩ | ⟨country, dc, hr, hpre,
    hmem, hdc, hcountry, -, -, -, -⟩
  · rw [hr]
    refine ⟨⟨fun _ e he => hnone e.2 (codes_mem_dialCodes e he), fun _ => rfl⟩,
      fun _ => ⟨rfl, rfl⟩, fun h => ?_⟩
    simp at h
  · rw [hr]
    refine ⟨⟨fun h => ?_, fun h => ?_⟩, fun h => ?_, fun _ => ⟨hcountry, hdc⟩⟩
    · simp at h
    · obtain ⟨e, he, hed⟩ := dialCodes_mem_codes dc hmem
      exact absurd (hed ▸ hpre) (h e he)
    · simp at h

theorem C6_witness :
    ((extractCountryCodeFromNumber CountryCodeMap.reverse (str "+99912345")).2.2 = false ↔
      ∀ e ∈ CountryCodeMap, ¬ e.2 <+: cleanNumber (str "+99912345")) ∧
    ((extractCountryCodeFromNumber CountryCodeMap.reverse (str "+99912345")).2.2 = false →
      (extractCountryCodeFromNumber CountryCodeMap.reverse (str "+99912345")).1 = [] ∧
        (extractCountryCodeFromNumber CountryCodeMap.reverse (str "+99912345")).2.1 = []) ∧
    ((extractCountryCodeFromNumber CountryCodeMap.reverse (str "+99912345")).2.2 = true →
      (extractCountryCodeFromNumber CountryCodeMap.reverse (str "+99912345")).1 ≠ [] ∧
        (extractCountryCodeFromNumber CountryCodeMap.reverse (str "+99912345")).2.1 ≠ []) :=
  C6_not_found_signal CountryCodeMap.reverse (List.reverse_perm _) (str "+99912345")

theorem stripPlus_of_removed (s t : GoString)
    (ht : s = 43 :: t ∨ (s = t ∧ s.head? ≠ some (43 : Byte))) : stripPlus s = t := by
  rcases ht with h | ⟨h, hh⟩
  · rw [h, stripPlus_cons_plus]
  · rw [stripPlus_of_head s hh, h]

/-- C2, the claim as stated fails: the canonical form of "++123" is "+123", whose canonical
form is "123". -/
theorem C2_counterexample :
    ¬ cleanNumber (cleanNumber (str "++123")) = cleanNumber (str "++123") := by
  decide

/-- C2, amended. Normalising twice gives the same as normalising once exactly for the
strings whose canonical form does not begin with '+'. -/
theorem C2_cleanNumber_idempotent_iff (s : GoString) :
    cleanNumber (cleanNumber s) = cleanNumber s ↔ (cleanNumber s).head? ≠ some (43 : Byte) := by
  have hsp : (32 : Byte) ∉ cleanNumber s := by
    rw [cleanNumber_eq]
    exact not_mem_replaceAll _ _
  constructor
  · intro h hhead
    obtain ⟨u, hu⟩ : ∃ u, cleanNumber s = 43 :: u := by
      cases hc : cleanNumber s with
      | nil => rw [hc] at hhead; simp at hhead
      | cons b u =>
        rw [hc] at hhead
        simp only [List.head?_cons, Option.some.injEq] at hhead
        exact ⟨u, by rw [hhead]⟩
    rw [hu, cleanNumber_eq, stripPlus_cons_plus, replaceAll_nil_eq_filter] at h
    have h1 := congrArg List.length h
    have h2 := List.length_filter_le (fun b => decide (b ≠ (32 : Byte))) u
    simp only [List.length_cons] at h1
    omega
  · intro hhead
    rw [cleanNumber_eq (cleanNumber s), stripPlus_of_head _ hhead]
    exact replaceAll_of_not_mem _ _ hsp

/-- C7. Format validator: with t the input without its one leading '+' (if it has one), the
validator accepts exactly when t is non-empty, is not made of white space only, and every
byte of t is an ASCII digit or the space. -/
theorem C7_format_validator (s t : GoString)
    (ht : s = 43 :: t ∨ (s = t ∧ s.head? ≠ some (43 : Byte))) :
    validatePhoneNumberFormat s = true ↔
      t ≠ [] ∧ ¬ (∀ r ∈ runes t, IsSpace r = true) ∧
        ∀ b ∈ t, (0x30 ≤ b.val ∧ b.val ≤ 0x39) ∨ b = (32 : Byte) := by
  rw [validatePhoneNumberFormat_iff, stripPlus_of_removed s t ht]

theorem C7_witness :
    validatePhoneNumberFormat (str "+1 212 569 0123") = true ↔
      str "1 212 569 0123" ≠ [] ∧ ¬ (∀ r ∈ runes (str "1 212 569 0123"), IsSpace r = true) ∧
        ∀ b ∈ str "1 212 569 0123", (0x30 ≤ b.val ∧ b.val ≤ 0x39) ∨ b = (32 : Byte) :=
  C7_format_validator (str "+1 212 569 0123") (str "1 212 569 0123") (Or.inl (by decide))

theorem contains_of_decomposition (u v : GoString) (sep : Byte) :
    Contains (u ++ sep :: sep :: v) [sep, sep] = true := by
  induction u with
  | nil => simp [Contains, List.isPrefixOf]
  | cons b w ih =>
    simp only [List.cons_append, Contains, Bool.or_eq_true]
    exact Or.inr ih

/-- C8. Space validator: with t the input without its one leading '+' (if it has one), the
validator accepts exactly when t is one to three non-empty runs of ASCII digits with one
space between consecutive runs.  In particular it rejects two consecutive spaces, a leading
or a trailing space, and, for t cut at its spaces into segments, a segment with a non-digit
or four or more segments. -/
theorem C8_space_validator (s t : GoString)
    (ht : s = 43 :: t ∨ (s = t ∧ s.head? ≠ some (43 : Byte))) :
    (validateSpaces s = true ↔
      ∃ segs : List GoString, t = List.intercalate [32] segs ∧
        1 ≤ segs.length ∧ segs.length ≤ 3 ∧ ∀ seg ∈ segs, seg ≠ [] ∧ IsDigits seg) ∧
    ((∃ u v, t = u ++ 32 :: 32 :: v) → validateSpaces s = false) ∧
    ((∃ u, t = 32 :: u) → validateSpaces s = false) ∧
    ((∃ u, t = u ++ [32]) → validateSpaces s = false) ∧
    (∀ segs : List GoString, t = List.intercalate [32] segs → (∀ seg ∈ segs, (32 : Byte) ∉ seg) →
      ((∃ seg ∈ segs, ¬ IsDigits seg) ∨ 4 ≤ segs.length) → validateSpaces s = false) := by
  have hstrip := stripPlus_of_removed s t ht
  have hsplit := validateSpaces_iff_split s
  rw [hstrip] at hsplit
  refine ⟨?_, ?_, ?_, ?_, ?_⟩
  · rw [validateSpaces_iff_segments, hstrip]
  · rintro ⟨u, v, huv⟩
    rw [Bool.eq_false_iff]
    intro hv
    have hc := contains_of_decomposition u v 32
    rw [← huv] at hc
    exact ((hsplit.mp hv).1 [] (List.mem_of_mem_tail (nil_mem_split_tail_of_contains t 32 hc))).1 rfl
  · rintro ⟨u, hu⟩
    rw [Bool.eq_false_iff]
    intro hv
    refine ((hsplit.mp hv).1 [] ?_).1 rfl
    rw [hu, split_cons_sep]
    exact List.mem_cons_self _ _
  · rintro ⟨u, hu⟩
    rw [Bool.eq_false_iff]
    intro hv
    refine ((hsplit.mp hv).1 [] ?_).1 rfl
    rw [hu, split_append_sep]
    simp
  · intro segs hsegs hno hbad
    rw [Bool.eq_false_iff]
    intro hv
    obtain ⟨hall, hlen⟩ := hsplit.mp hv
    by_cases hne : segs = []
    · subst hne
      rw [hsegs] at hall
      exact (hall [] (by simp [List.intercalate, List.intersperse, Split])).1 rfl
    · rw [hsegs, split_intercalate 32 segs hne hno] at hall hlen
      rcases hbad with ⟨seg, hseg, hnd⟩ | h4
      · exact hnd (hall seg hseg).2
      · omega

theorem C8_witness :
    (validateSpaces (str "+1 212 5690123") = true ↔
      ∃ segs : List GoString, str "1 212 5690123" = List.intercalate [32] segs ∧
        1 ≤ segs.length ∧ segs.length ≤ 3 ∧ ∀ seg ∈ segs, seg ≠ [] ∧ IsDigits seg) ∧
    ((∃ u v, str "1 212 5690123" = u ++ 32 :: 32 :: v) →
      validateSpaces (str "+1 212 5690123") = false) ∧
    ((∃ u, str "1 212 5690123" = 32 :: u) → validateSpaces (str "+1 212 5690123") = false) ∧
    ((∃ u, str "1 212 5690123" = u ++ [32]) → validateSpaces (str "+1 212 5690123") = false) ∧
    (∀ segs : List GoString, str "1 212 5690123" = List.intercalate [32] segs →
      (∀ seg ∈ segs, (32 : Byte) ∉ seg) →
      ((∃ seg ∈ segs, ¬ IsDigits seg) ∨ 4 ≤ segs.length) →
      validateSpaces (str "+1 212 5690123") = false) :=
  C8_space_validator (str "+1 212 5690123") (str "1 212 5690123") (Or.inl (by decide))

/-- C1, the claim as stated fails: "6043118150" with the country code "CA" parses to
"+16043118150" in CA, and "+16043118150" parses to the same number in US. -/
theorem C1_counterexample :
    parsePhoneNumber CountryCodeMap (str "6043118150") (str "CA")
      = some (some ⟨str "+16043118150", str "CA", str "604", str "3118150"⟩, none) ∧
    parsePhoneNumber CountryCodeMap (str "+16043118150") []
      = some (some ⟨str "+16043118150", str "US", str "604", str "3118150"⟩, none) ∧
    parsePhoneNumber CountryCodeMap (str "+16043118150") []
      ≠ parsePhoneNumber CountryCodeMap (str "6043118150") (str "CA") := by
  decide

/-- C1, amended. If parsing (p, c) succeeds with result r, then parsing r.phoneNumber with
no country code succeeds too; its result is r itself when r.countryCode is not "CA", and r
with countryCode "US" (the other three fields unchanged) when r.countryCode is "CA". This
holds whatever the enumeration orders of the map in the two runs. -/
theorem C1_reparse_idempotent (order1 order2 : List (GoString × GoString))
    (hperm1 : order1.Perm CountryCodeMap) (hperm2 : order2.Perm CountryCodeMap)
    (p c : GoString) (r : PhoneNumberResponse)
    (h : parsePhoneNumber order1 p c = some (some r, none)) :
    (r.CountryCode ≠ str "CA" →
      parsePhoneNumber order2 r.PhoneNumber [] = some (some r, none)) ∧
    (r.CountryCode = str "CA" →
      parsePhoneNumber order2 r.PhoneNumber [] =
        some (some ⟨r.PhoneNumber, str "US", r.AreaCode, r.LocalPhoneNumber⟩, none)) := by
  obtain ⟨hv, hcases⟩ := parse_success_cases order1 hperm1 p c r h
  obtain ⟨-, hdig⟩ := cleanNumber_of_validateSpaces p hv
  rcases hcases with ⟨country, d, N, hext, hN, -, hr⟩ | ⟨d, N, -, -, -, hd, hN, -, hr⟩
  · rcases extractResolved_cases (cleanNumber p) _ hext with ⟨hx, -⟩ | ⟨country', dc, hx, hpre,
      hmem, hne, -, hca, hmap, -, -⟩
    · simp at hx
    · simp only [Prod.mk.injEq, and_true] at hx
      obtain ⟨rfl, rfl⟩ := hx
      have hdd : IsDigits d := (codes_isDigits _ (mapGet_mem _ _ _ hmap)).2
      have hrest : IsDigits ((cleanNumber p).drop d.length) :=
        fun b hb => hdig b (List.mem_of_mem_drop hb)
      obtain ⟨country2, N2, hmap2, hca2, -, hN2, hparse⟩ :=
        reparse order2 hperm2 d _ hmem hdd hne hrest
      have hcountry : country2 = country :=
        country_of_code_unique (country2, d) (mapGet_mem _ _ _ hmap2) (country, d)
          (mapGet_mem _ _ _ hmap) rfl hca2 hca
      subst hcountry
      have hNN : N2 = N := Option.some.inj (hN2.symm.trans hN)
      subst hNN
      subst hr
      exact ⟨fun _ => hparse, fun hc => absurd hc hca⟩
  · have hmemd := mapGet_mem _ _ _ hd
    obtain ⟨hne, hdd⟩ := codes_isDigits _ hmemd
    obtain ⟨country2, N2, hmap2, hca2, hus2, hN2, hparse⟩ :=
      reparse order2 hperm2 d (cleanNumber p) (codes_mem_dialCodes _ hmemd) hdd hne hdig
    subst hr
    constructor
    · intro hca
      have hcountry : country2 = ToUpper c :=
        country_of_code_unique (country2, d) (mapGet_mem _ _ _ hmap2) (ToUpper c, d) hmemd rfl
          hca2 hca
      subst hcountry
      have hNN : N2 = N := Option.some.inj (hN2.symm.trans hN)
      subst hNN
      exact hparse
    · intro hca
      dsimp only at hca ⊢
      rw [hca] at hd hN
      have hd1 : d = str "1" := Option.some.inj (hd.symm.trans (by decide))
      have hN3 : N = 3 := Option.some.inj (hN.symm.trans (by decide))
      have hus := hus2 hd1
      subst hus
      have hN23 : N2 = 3 := Option.some.inj (hN2.symm.trans (by decide))
      rw [hN23] at hparse
      rw [hN3]
      exact hparse

set_option maxRecDepth 100000 in
theorem C1_witness :
    (str "MX" ≠ str "CA" →
      parsePhoneNumber CountryCodeMap (str "+526313118150") []
        = some (some ⟨str "+526313118150", str "MX", str "631", str "3118150"⟩, none)) ∧
    (str "MX" = str "CA" →
      parsePhoneNumber CountryCodeMap (str "+526313118150") []
        = some (some ⟨str "+526313118150", str "US", str "631", str "3118150"⟩, none)) :=
  C1_reparse_idempotent CountryCodeMap.reverse CountryCodeMap (List.reverse_perm _)
    (List.Perm.refl _) (str "631 311 8150") (str "mx")
    ⟨str "+526313118150", str "MX", str "631", str "3118150"⟩ (by decide)

/-- C3. Embedded-dial-code success: for an input made of one to three non-empty runs of
ASCII digits separated by single spaces, with or without one '+' in front, whose digits
start with a dial code of the table, and for every country code, parsing succeeds and the
result's phoneNumber is "+" followed by the canonical digit string, which is the digits of
the runs: no space, ASCII digits only. -/
theorem C3_embedded_dial_code_success (order : List (GoString × GoString))
    (hperm : order.Perm CountryCodeMap) (plus : Bool) (segs : List GoString) (p c : GoString)
    (hp : p = (if plus = true then str "+" else []) ++ List.intercalate [32] segs)
    (hlen1 : 1 ≤ segs.length) (hlen3 : segs.length ≤ 3)
    (hsegs : ∀ seg ∈ segs, seg ≠ [] ∧ IsDigits seg)
    (hdial : ∃ e ∈ CountryCodeMap, e.2 <+: segs.flatten) :
    ∃ r : PhoneNumberResponse, parsePhoneNumber order p c = some (some r, none) ∧
      r.PhoneNumber = str "+" ++ cleanNumber p ∧ cleanNumber p = segs.flatten ∧
      IsDigits (cleanNumber p) ∧ (32 : Byte) ∉ r.PhoneNumber := by
  have hstrip : stripPlus p = List.intercalate [32] segs := by
    rw [hp]
    exact stripPlus_intercalate plus segs hlen1 hsegs
  have hv : validateSpaces p = true :=
    (validateSpaces_iff_segments p).mpr ⟨segs, hstrip, hlen1, hlen3, hsegs⟩
  have hne : segs ≠ [] := by
    intro h
    simp [h] at hlen1
  have hclean : cleanNumber p = segs.flatten := by
    rw [cleanNumber_eq, replaceAll_eq_flatten_split, hstrip,
      split_intercalate 32 segs hne (fun seg hs => space_not_mem_of_isDigits seg (hsegs seg hs).2)]
  have hdig := (cleanNumber_of_validateSpaces p hv).2
  obtain ⟨e, he, hpre⟩ := hdial
  rcases extractResolved_cases (cleanNumber p) _ rfl with ⟨-, hnone⟩ | ⟨country, dc, hr, hdc, -⟩
  · exact absurd (hclean ▸ hpre) (hnone e.2 (codes_mem_dialCodes e he))
  · obtain ⟨N, -, -, hparse⟩ := parse_found order hperm p c country dc hv hr
    have hfull : str "+" ++ dc ++ (cleanNumber p).drop dc.length = str "+" ++ cleanNumber p := by
      rw [List.append_assoc, List.prefix_iff_eq_append.mp hdc]
    refine ⟨_, hparse, hfull, hclean, hdig, ?_⟩
    rw [hfull, str_plus]
    intro hm
    rcases List.mem_cons.mp hm with h43 | hm'
    · exact absurd h43 (by decide)
    · exact space_not_mem_of_isDigits _ hdig hm'

set_option maxRecDepth 100000 in
theorem C3_witness :
    ∃ r : PhoneNumberResponse,
      parsePhoneNumber CountryCodeMap.reverse (str "+52 631 3118150") (str "ESP")
        = some (some r, none) ∧
      r.PhoneNumber = str "+" ++ cleanNumber (str "+52 631 3118150") ∧
      cleanNumber (str "+52 631 3118150") = [str "52", str "631", str "3118150"].flatten ∧
      IsDigits (cleanNumber (str "+52 631 3118150")) ∧ (32 : Byte) ∉ r.PhoneNumber :=
  C3_embedded_dial_code_success CountryCodeMap.reverse (List.reverse_perm _) true
    [str "52", str "631", str "3118150"] (str "+52 631 3118150") (str "ESP") (by decide)
    (by decide) (by decide) (by decide) ⟨(str "MX", str "52"), by decide, by decide⟩

/-- C9. Area-code split rule, the same in both branches: for every successful result r, with
d the dial code and N the area-code length of r.countryCode in the tables, and rest what
follows "+" and d in r.phoneNumber: if rest is longer than N then r.areaCode is the first N
bytes of rest and r.localPhoneNumber the remainder; otherwise (equal length included)
r.areaCode is empty and r.localPhoneNumber is rest. -/
theorem C9_area_code_split (order : List (GoString × GoString))
    (hperm : order.Perm CountryCodeMap) (p c : GoString) (r : PhoneNumberResponse)
    (h : parsePhoneNumber order p c = some (some r, none)) :
    ∃ (d : GoString) (N : Int), mapGet CountryCodeMap r.CountryCode = some d ∧
      mapGet AreaCodeMap r.CountryCode = some N ∧
      r.PhoneNumber = str "+" ++ d ++ r.PhoneNumber.drop (1 + d.length) ∧
      (len (r.PhoneNumber.drop (1 + d.length)) > N →
        r.AreaCode = (r.PhoneNumber.drop (1 + d.length)).take N.toNat ∧
        r.LocalPhoneNumber = (r.PhoneNumber.drop (1 + d.length)).drop N.toNat) ∧
      (len (r.PhoneNumber.drop (1 + d.length)) ≤ N →
        r.AreaCode = [] ∧ r.LocalPhoneNumber = r.PhoneNumber.drop (1 + d.length)) := by
  obtain ⟨-, hcases⟩ := parse_success_cases order hperm p c r h
  rcases hcases with ⟨country, d, N, hext, hN, hpos, hr⟩ | ⟨d, N, -, -, -, hd, hN, hpos, hr⟩
  · rcases extractResolved_cases (cleanNumber p) _ hext with ⟨hx, -⟩ | ⟨country', dc, hx, -,
      -, -, -, -, hmap, -, -⟩
    · simp at hx
    · simp only [Prod.mk.injEq, and_true] at hx
      obtain ⟨rfl, rfl⟩ := hx
      subst hr
      refine ⟨d, N, hmap, hN, ?_⟩
      dsimp only
      rw [drop_plus_dial]
      exact ⟨rfl, splitPair_spec _ N hpos⟩
  · subst hr
    refine ⟨d, N, hd, hN, ?_⟩
    dsimp only
    rw [drop_plus_dial]
    exact ⟨rfl, splitPair_spec _ N hpos⟩

theorem C9_witness :
    ∃ (d : GoString) (N : Int),
      mapGet CountryCodeMap (str "JP") = some d ∧ mapGet AreaCodeMap (str "JP") = some N ∧
      str "+811" = str "+" ++ d ++ (str "+811").drop (1 + d.length) ∧
      (len ((str "+811").drop (1 + d.length)) > N →
        ([] : GoString) = ((str "+811").drop (1 + d.length)).take N.toNat ∧
        str "1" = ((str "+811").drop (1 + d.length)).drop N.toNat) ∧
      (len ((str "+811").drop (1 + d.length)) ≤ N →
        ([] : GoString) = [] ∧ str "1" = (str "+811").drop (1 + d.length)) :=
  C9_area_code_split CountryCodeMap (List.Perm.refl _) (str "+811") []
    ⟨str "+811", str "JP", [], str "1"⟩ (by decide)

/-- C10. Explicit-country success: for an input accepted by both validators whose canonical
digit string starts with no dial code of the table, and a country code of two ASCII letters
(any case) whose upper-case form is a key of both tables, parsing succeeds with phoneNumber
"+" followed by the country's dial code and the whole canonical digit string, and with
countryCode the upper-case form. -/
theorem C10_explicit_country_success (order : List (GoString × GoString))
    (hperm : order.Perm CountryCodeMap) (p : GoString) (a b : Byte) (d : GoString) (N : Int)
    (hf : validatePhoneNumberFormat p = true) (hv : validateSpaces p = true)
    (hno : ∀ e ∈ CountryCodeMap, ¬ e.2 <+: cleanNumber p)
    (ha : IsAsciiLetter a) (hb : IsAsciiLetter b)
    (hd : mapGet CountryCodeMap (ToUpper [a, b]) = some d)
    (hN : mapGet AreaCodeMap (ToUpper [a, b]) = some N) :
    ∃ r : PhoneNumberResponse, parsePhoneNumber order p [a, b] = some (some r, none) ∧
      r.PhoneNumber = str "+" ++ d ++ cleanNumber p ∧ r.CountryCode = ToUpper [a, b] := by
  have _ := hf
  rcases extractResolved_cases (cleanNumber p) _ rfl with ⟨hr, -⟩ | ⟨country, dc, -, hpre,
    hmem, -⟩
  · rw [parse_not_found order hperm p [a, b] hv hr,
      processWithout_eval p [a, b] d N (by simp) (validateCountryCode_of_letters a b ha hb) hd hN]
    exact ⟨_, rfl, rfl, rfl⟩
  · obtain ⟨e, he, hed⟩ := dialCodes_mem_codes dc hmem
    exact absurd (hed ▸ hpre) (hno e he)

theorem C10_witness :
    ∃ r : PhoneNumberResponse,
      parsePhoneNumber CountryCodeMap.reverse (str "631 311 8150") [109, 120]
        = some (some r, none) ∧
      r.PhoneNumber = str "+" ++ str "52" ++ cleanNumber (str "631 311 8150") ∧
      r.CountryCode = ToUpper [109, 120] :=
  C10_explicit_country_success CountryCodeMap.reverse (List.reverse_perm _)
    (str "631 311 8150") 109 120 (str "52") 3 (by decide) (by decide) (by decide) (by decide)
    (by decide) (by decide) (by decide)

/-- C11. Unsupported country: for every phone-number string and every country code of two
ASCII letters whose upper-case form is not a key of the table, the explicit-country function
returns no result and the error "countryCode: unsupported country". -/
theorem C11_unsupported_country (p : GoString) (a b : Byte) (ha : IsAsciiLetter a)
    (hb : IsAsciiLetter b) (hkey : mapGet CountryCodeMap (ToUpper [a, b]) = none) :
    processNumberWithoutCountryCode p [a, b] =
      some (none, some ⟨p, [(str "countryCode", str "unsupported country")]⟩) := by
  have hc : ¬ ([a, b] : GoString) = [] := by simp
  simp only [processNumberWithoutCountryCode, hc, if_false,
    validateCountryCode_of_letters a b ha hb, Bool.not_true, Bool.false_eq_true, hkey]

theorem C11_witness :
    processNumberWithoutCountryCode (str "2125690123") [88, 120] =
      some (none, some ⟨str "2125690123", [(str "countryCode", str "unsupported country")]⟩) :=
  C11_unsupported_country (str "2125690123") 88 120 (by decide) (by decide) (by decide)

/-- C12. Format failure comes first: when the format validator rejects the input, the
parser returns no result and the error "phoneNumber: invalid format", for every country code
and whatever the space validator says. -/
theorem C12_format_failure_first (order : List (GoString × GoString)) (p c : GoString)
    (hf : validatePhoneNumberFormat p = false) :
    parsePhoneNumber order p c =
      some (none, some ⟨p, [(str "phoneNumber", str "invalid format")]⟩) := by
  simp only [parsePhoneNumber, hf, Bool.not_false, if_true]

theorem C12_witness :
    parsePhoneNumber CountryCodeMap (str "1  2a") (str "ESP") =
      some (none, some ⟨str "1  2a", [(str "phoneNumber", str "invalid format")]⟩) :=
  C12_format_failure_first CountryCodeMap (str "1  2a") (str "ESP") (by decide)

/-- C13. Space failure: when the format validator accepts the input and the space validator
rejects it, the parser returns no result and the error "phoneNumber: invalid space
placement", for every country code. -/
theorem C13_space_failure (order : List (GoString × GoString)) (p c : GoString)
    (hf : validatePhoneNumberFormat p = true) (hv : validateSpaces p = false) :
    parsePhoneNumber order p c =
      some (none, some ⟨p, [(str "phoneNumber", str "invalid space placement")]⟩) := by
  simp only [parsePhoneNumber, hf, hv, Bool.not_true, Bool.not_false, Bool.false_eq_true,
    if_false, if_true]

theorem C13_witness :
    parsePhoneNumber CountryCodeMap (str "351 21 094 2000") [] =
      some (none, some ⟨str "351 21 094 2000",
        [(str "phoneNumber", str "invalid space placement")]⟩) :=
  C13_space_failure CountryCodeMap (str "351 21 094 2000") [] (by decide) (by decide)

theorem extractResolved_of_no_dial_code (clean : GoString)
    (hno : ∀ e ∈ CountryCodeMap, ¬ e.2 <+: clean) : extractResolved clean = ([], [], false) := by
  rcases extractResolved_cases clean _ rfl with ⟨hr, -⟩ | ⟨country, dc, -, hpre, hmem, -⟩
  · exact hr
  · obtain ⟨e, he, hed⟩ := dialCodes_mem_codes dc hmem
    exact absurd (hed ▸ hpre) (hno e he)

/-- C14. Missing country code: for an input accepted by both validators whose canonical
digit string starts with no dial code of the table, parsing with the empty country code
returns no result and the error "countryCode: required value is missing". -/
theorem C14_missing_country_code (order : List (GoString × GoString))
    (hperm : order.Perm CountryCodeMap) (p : GoString)
    (hf : validatePhoneNumberFormat p = true) (hv : validateSpaces p = true)
    (hno : ∀ e ∈ CountryCodeMap, ¬ e.2 <+: cleanNumber p) :
    parsePhoneNumber order p [] =
      some (none, some ⟨p, [(str "countryCode", str "required value is missing")]⟩) := by
  have _ := hf
  rw [parse_not_found order hperm p [] hv (extractResolved_of_no_dial_code _ hno)]
  simp only [processNumberWithoutCountryCode, if_true]

theorem C14_witness :
    parsePhoneNumber CountryCodeMap.reverse (str "631 311 8150") [] =
      some (none, some ⟨str "631 311 8150",
        [(str "countryCode", str "required value is missing")]⟩) :=
  C14_missing_country_code CountryCodeMap.reverse (List.reverse_perm _) (str "631 311 8150")
    (by decide) (by decide) (by decide)

theorem validateCountryCode_iff (c : GoString) :
    validateCountryCodeMeetsISO_3166_1_alpha_2 c = true ↔
      ∃ a b : Byte, c = [a, b] ∧ IsAsciiLetter a ∧ IsAsciiLetter b := by
  constructor
  · intro h
    unfold validateCountryCodeMeetsISO_3166_1_alpha_2 at h
    split_ifs at h with hlen
    have hlen2 : c.length = 2 := by
      simp only [len, ne_eq, not_not] at hlen
      exact_mod_cast hlen
    obtain ⟨a, b, hab⟩ := List.length_eq_two.mp hlen2
    rw [runes_all_ascii _ (fun r hr => by
      simp only [Bool.decide_or, Bool.decide_and, Bool.or_eq_true, Bool.and_eq_true,
        decide_eq_true_eq] at hr
      omega)] at h
    subst hab
    have h1 := h a (List.mem_cons_self _ _)
    have h2 := h b (List.mem_cons_of_mem _ (List.mem_cons_self _ _))
    simp only [Bool.decide_or, Bool.decide_and, Bool.or_eq_true, Bool.and_eq_true,
      decide_eq_true_eq] at h1 h2
    exact ⟨a, b, rfl, h1, h2⟩
  · rintro ⟨a, b, rfl, ha, hb⟩
    exact validateCountryCode_of_letters a b ha hb

/-- C15. Malformed country code: the country-code check accepts exactly the strings of two
ASCII letters (upper or lower case); and for an input accepted by both validators with no
embedded dial code and a non-empty country code that is not two ASCII letters, the parser
returns no result and the error "countryCode: invalid format". -/
theorem C15_malformed_country_code (order : List (GoString × GoString))
    (hperm : order.Perm CountryCodeMap) :
    (∀ c : GoString, validateCountryCodeMeetsISO_3166_1_alpha_2 c = true ↔
      ∃ a b : Byte, c = [a, b] ∧ IsAsciiLetter a ∧ IsAsciiLetter b) ∧
    (∀ p c : GoString, validatePhoneNumberFormat p = true → validateSpaces p = true →
      (∀ e ∈ CountryCodeMap, ¬ e.2 <+: cleanNumber p) → c ≠ [] →
      (¬ ∃ a b : Byte, c = [a, b] ∧ IsAsciiLetter a ∧ IsAsciiLetter b) →
      parsePhoneNumber order p c =
        some (none, some ⟨p, [(str "countryCode", str "invalid format")]⟩)) := by
  refine ⟨validateCountryCode_iff, ?_⟩
  intro p c _ hv hno hc hbad
  have hvc : validateCountryCodeMeetsISO_3166_1_alpha_2 c = false := by
    rw [Bool.eq_false_iff]
    exact fun h => hbad ((validateCountryCode_iff c).mp h)
  rw [parse_not_found order hperm p c hv (extractResolved_of_no_dial_code _ hno)]
  simp only [processNumberWithoutCountryCode, hc, if_false, hvc, Bool.not_false, if_true]

theorem C15_witness :
    parsePhoneNumber CountryCodeMap.reverse (str "631 311 8150") (str "ESP") =
      some (none, some ⟨str "631 311 8150", [(str "countryCode", str "invalid format")]⟩) :=
  (C15_malformed_country_code CountryCodeMap.reverse (List.reverse_perm _)).2
    (str "631 311 8150") (str "ESP") (by decide) (by decide) (by decide) (by decide)
    (by
      rintro ⟨a, b, h, -⟩
      have h3 : (str "ESP").length = 3 := by decide
      rw [h] at h3
      simp at h3)

theorem processWith_error_shape (p d country : GoString) (res : Option PhoneNumberResponse)
    (e : ErrorResponse) (h : processNumberWithCountryCode p d country = some (res, some e)) :
    res = none ∧ e = ⟨p, [(str "countryCode", str "unsupported country")]⟩ := by
  unfold processNumberWithCountryCode at h
  cases hs : sliceFrom (cleanNumber p) (len d) with
  | none => simp [hs] at h
  | some remaining =>
    cases hN : mapGet AreaCodeMap country with
    | none =>
      simp only [hs, hN, Option.some.injEq, Prod.mk.injEq] at h
      exact ⟨h.1.symm, h.2.symm⟩
    | some N =>
      simp only [hs, hN, split_eval] at h
      simp at h

theorem processWithout_error_shape (p c : GoString) (res : Option PhoneNumberResponse)
    (e : ErrorResponse) (h : processNumberWithoutCountryCode p c = some (res, some e)) :
    res = none ∧ e.PhoneNumber = p ∧ ∃ v, e.Error = [(str "countryCode", v)] := by
  by_cases hc : c = []
  · simp only [processNumberWithoutCountryCode, hc, if_true, Option.some.injEq,
      Prod.mk.injEq] at h
    obtain ⟨h1, h2⟩ := h
    subst h2
    exact ⟨h1.symm, rfl, _, rfl⟩
  by_cases hv : validateCountryCodeMeetsISO_3166_1_alpha_2 c = true
  swap
  · simp only [Bool.not_eq_true] at hv
    simp only [processNumberWithoutCountryCode, hc, if_false, hv, Bool.not_false, if_true,
      Option.some.injEq, Prod.mk.injEq] at h
    obtain ⟨h1, h2⟩ := h
    subst h2
    exact ⟨h1.symm, rfl, _, rfl⟩
  cases hd : mapGet CountryCodeMap (ToUpper c) with
  | none =>
    simp only [processNumberWithoutCountryCode, hc, if_false, hv, Bool.not_true,
      Bool.false_eq_true, hd, Option.some.injEq, Prod.mk.injEq] at h
    obtain ⟨h1, h2⟩ := h
    subst h2
    exact ⟨h1.symm, rfl, _, rfl⟩
  | some d =>
    cases hN : mapGet AreaCodeMap (ToUpper c) with
    | none =>
      simp only [processNumberWithoutCountryCode, hc, if_false, hv, Bool.not_true,
        Bool.false_eq_true, hd, hN, Option.some.injEq, Prod.mk.injEq] at h
      obtain ⟨h1, h2⟩ := h
      subst h2
      exact ⟨h1.symm, rfl, _, rfl⟩
    | some N =>
      rw [processWithout_eval p c d N hc hv hd hN] at h
      simp at h

/-- C16. Error shape: whenever the parser returns an error, no result is returned alongside
it, the error's phoneNumber is the input exactly as given, and its error map has exactly one
entry, whose key is "phoneNumber" or "countryCode". -/
theorem C16_error_shape (order : List (GoString × GoString)) (p c : GoString)
    (res : Option PhoneNumberResponse) (e : ErrorResponse)
    (h : parsePhoneNumber order p c = some (res, some e)) :
    res = none ∧ e.PhoneNumber = p ∧
      ∃ k v, e.Error = [(k, v)] ∧ (k = str "phoneNumber" ∨ k = str "countryCode") := by
  by_cases hf : validatePhoneNumberFormat p = true
  swap
  · simp only [Bool.not_eq_true] at hf
    simp only [parsePhoneNumber, hf, Bool.not_false, if_true, Option.some.injEq,
      Prod.mk.injEq] at h
    obtain ⟨h1, h2⟩ := h
    subst h2
    exact ⟨h1.symm, rfl, _, _, rfl, Or.inl rfl⟩
  by_cases hv : validateSpaces p = true
  swap
  · simp only [Bool.not_eq_true] at hv
    simp only [parsePhoneNumber, hf, hv, Bool.not_true, Bool.not_false, Bool.false_eq_true,
      if_false, if_true, Option.some.injEq, Prod.mk.injEq] at h
    obtain ⟨h1, h2⟩ := h
    subst h2
    exact ⟨h1.symm, rfl, _, _, rfl, Or.inl rfl⟩
  rcases hext : extractCountryCodeFromNumber order p with ⟨country, d, found⟩
  cases found with
  | true =>
    simp only [parsePhoneNumber, hf, hv, Bool.not_true, Bool.false_eq_true, if_false,
      hext] at h
    obtain ⟨h1, h2⟩ := processWith_error_shape p d country res e h
    subst h2
    exact ⟨h1, rfl, _, _, rfl, Or.inr rfl⟩
  | false =>
    simp only [parsePhoneNumber, hf, hv, Bool.not_true, Bool.false_eq_true, if_false,
      hext] at h
    obtain ⟨h1, h2, v, h3⟩ := processWithout_error_shape p c res e h
    exact ⟨h1, h2, _, v, h3, Or.inr rfl⟩

theorem C16_witness :
    (none : Option PhoneNumberResponse) = none ∧
      (⟨str "+1 212 569 0123", [(str "phoneNumber", str "invalid space placement")]⟩ :
        ErrorResponse).PhoneNumber = str "+1 212 569 0123" ∧
      ∃ k v, (⟨str "+1 212 569 0123", [(str "phoneNumber", str "invalid space placement")]⟩ :
        ErrorResponse).Error = [(k, v)] ∧ (k = str "phoneNumber" ∨ k = str "countryCode") :=
  C16_error_shape CountryCodeMap (str "+1 212 569 0123") (str "us") none
    ⟨str "+1 212 569 0123", [(str "phoneNumber", str "invalid space placement")]⟩ (by decide)

set_option maxRecDepth 100000 in
theorem keys_upper_case : ∀ e ∈ CountryCodeMap,
    e.1.length = 2 ∧ ∀ b ∈ e.1, 0x41 ≤ b.val ∧ b.val ≤ 0x5A := by
  decide

/-- C17. For every successful parse the result's countryCode is two upper-case ASCII
letters and a key of both tables, in either branch; in the explicit-country branch it is the
upper-case form of the country code that was passed. -/
theorem C17_country_code_upper_case (order : List (GoString × GoString))
    (hperm : order.Perm CountryCodeMap) (p c : GoString) (r : PhoneNumberResponse)
    (h : parsePhoneNumber order p c = some (some r, none)) :
    r.CountryCode.length = 2 ∧ (∀ b ∈ r.CountryCode, 0x41 ≤ b.val ∧ b.val ≤ 0x5A) ∧
      (mapGet CountryCodeMap r.CountryCode).isSome = true ∧
      (mapGet AreaCodeMap r.CountryCode).isSome = true ∧
      ((extractCountryCodeFromNumber order p).2.2 = false → r.CountryCode = ToUpper c) := by
  obtain ⟨-, hcases⟩ := parse_success_cases order hperm p c r h
  rw [extract_eq_resolved order hperm p]
  rcases hcases with ⟨country, d, N, hext, hN, -, hr⟩ | ⟨d, N, -, -, -, hd, hN, -, hr⟩
  · rcases extractResolved_cases (cleanNumber p) _ hext with ⟨hx, -⟩ | ⟨country', dc, hx, -,
      -, -, -, -, hmap, -, -⟩
    · simp at hx
    · simp only [Prod.mk.injEq, and_true] at hx
      obtain ⟨rfl, rfl⟩ := hx
      subst hr
      have hk := keys_upper_case _ (mapGet_mem _ _ _ hmap)
      refine ⟨hk.1, hk.2, ?_, ?_, ?_⟩
      · simp only [hmap, Option.isSome_some]
      · simp only [hN, Option.isSome_some]
      · intro hfalse
        rw [hext] at hfalse
        simp at hfalse
  · subst hr
    have hk := keys_upper_case _ (mapGet_mem _ _ _ hd)
    refine ⟨hk.1, hk.2, ?_, ?_, fun _ => rfl⟩
    · simp only [hd, Option.isSome_some]
    · simp only [hN, Option.isSome_some]

set_option maxRecDepth 100000 in
theorem C17_witness :
    (str "US").length = 2 ∧ (∀ b ∈ str "US", 0x41 ≤ b.val ∧ b.val ≤ 0x5A) ∧
      (mapGet CountryCodeMap (str "US")).isSome = true ∧
      (mapGet AreaCodeMap (str "US")).isSome = true ∧
      ((extractCountryCodeFromNumber CountryCodeMap.reverse (str "2125690123")).2.2 = false →
        str "US" = ToUpper (str "us")) :=
  C17_country_code_upper_case CountryCodeMap.reverse (List.reverse_perm _) (str "2125690123")
    (str "us") ⟨str "+12125690123", str "US", str "212", str "5690123"⟩ (by decide)

theorem mapGet_isSome_iff {β : Type} (m : List (GoString × β)) (k : GoString) :
    (mapGet m k).isSome = true ↔ k ∈ m.map Prod.fst := by
  induction m with
  | nil => simp [mapGet]
  | cons e rest ih =>
    obtain ⟨k', v⟩ := e
    by_cases hk : k' = k
    · simp [mapGet, hk]
    · have hk' : ¬ k = k' := fun h => hk h.symm
      simp only [mapGet, hk, if_false, ih, List.map_cons, List.mem_cons, hk', false_or]

theorem keys_eq : CountryCodeMap.map Prod.fst = AreaCodeMap.map Prod.fst := by
  decide

/-- C18. Table consistency: a country code is a key of the dial-code table exactly when it
is a key of the area-code table; every dial code is a non-empty string of ASCII digits; and
every area-code length is at least 0. -/
theorem C18_table_consistency :
    (∀ k : GoString, (mapGet CountryCodeMap k).isSome = true ↔
      (mapGet AreaCodeMap k).isSome = true) ∧
    (∀ e ∈ CountryCodeMap, e.2 ≠ [] ∧ IsDigits e.2) ∧
    (∀ e ∈ AreaCodeMap, 0 ≤ e.2) := by
  refine ⟨fun k => ?_, codes_isDigits, fun e he => Int.le_of_lt (areaCode_pos e he)⟩
  rw [mapGet_isSome_iff, mapGet_isSome_iff, keys_eq]

theorem C18_witness :
    (mapGet CountryCodeMap (str "PT")).isSome = true ↔
      (mapGet AreaCodeMap (str "PT")).isSome = true :=
  C18_table_consistency.1 (str "PT")

/-- C19. Deterministic reverse lookup: the priority list holds exactly the dial codes that
occur in the table; for every dial code of the list other than "1" exactly one country of the
table maps to it; and the extractor returns the same triple for every input whatever the
order in which the table is enumerated. -/
theorem C19_deterministic_reverse_lookup :
    (∀ d : GoString, d ∈ dialCodes ↔ ∃ e ∈ CountryCodeMap, e.2 = d) ∧
    (∀ d ∈ dialCodes, d ≠ str "1" → ∃! country, (country, d) ∈ CountryCodeMap) ∧
    (∀ order1 order2 : List (GoString × GoString), order1.Perm CountryCodeMap →
      order2.Perm CountryCodeMap → ∀ p : GoString,
        extractCountryCodeFromNumber order1 p = extractCountryCodeFromNumber order2 p) := by
  refine ⟨fun d => ⟨dialCodes_mem_codes d, ?_⟩, ?_, ?_⟩
  · rintro ⟨e, he, rfl⟩
    exact codes_mem_dialCodes e he
  · intro d hd h1
    obtain ⟨e, he, hed, huniq⟩ := dialCodes_resolve d hd h1
    obtain ⟨k, c⟩ := e
    simp only at hed huniq
    subst hed
    exact ⟨k, he, fun k' hk' => huniq (k', c) hk' rfl⟩
  · intro order1 order2 h1 h2 p
    rw [extract_perm order1 h1 p, extract_perm order2 h2 p]

theorem C19_witness :
    extractCountryCodeFromNumber CountryCodeMap.reverse (str "+49301234567")
      = extractCountryCodeFromNumber (CountryCodeMap.rotate 3) (str "+49301234567") :=
  C19_deterministic_reverse_lookup.2.2 CountryCodeMap.reverse (CountryCodeMap.rotate 3)
    (List.reverse_perm _) (List.rotate_perm _ _) (str "+49301234567")

/-- C20. Normaliser: the canonical form of a string is the string without its one leading
'+' (if it has one; any other '+' is kept) and without any space, so it holds no space; the
canonical forms of "" and of "+" are empty; and for an input accepted by the space validator
it is a non-empty string of ASCII digits. -/
theorem C20_normaliser_definition :
    (∀ t : GoString, cleanNumber (43 :: t) = t.filter (fun b => decide (b ≠ (32 : Byte)))) ∧
    (∀ s : GoString, s.head? ≠ some (43 : Byte) →
      cleanNumber s = s.filter (fun b => decide (b ≠ (32 : Byte)))) ∧
    (∀ s : GoString, (32 : Byte) ∉ cleanNumber s) ∧
    cleanNumber [] = [] ∧ cleanNumber (str "+") = [] ∧
    cleanNumber (str "++1 2+3") = str "+12+3" ∧
    (∀ s : GoString, validateSpaces s = true → cleanNumber s ≠ [] ∧ IsDigits (cleanNumber s)) := by
  refine ⟨?_, ?_, ?_, by decide, by decide, by decide, cleanNumber_of_validateSpaces⟩
  · intro t
    rw [cleanNumber_eq, stripPlus_cons_plus, replaceAll_nil_eq_filter]
  · intro s hs
    rw [cleanNumber_eq, stripPlus_of_head s hs, replaceAll_nil_eq_filter]
  · intro s
    rw [cleanNumber_eq]
    exact not_mem_replaceAll _ _

theorem C20_witness :
    cleanNumber (str "+1 212 5690123") ≠ [] ∧ IsDigits (cleanNumber (str "+1 212 5690123")) :=
  C20_normaliser_definition.2.2.2.2.2.2 (str "+1 212 5690123") (by decide)

/-! ### Totality -/

theorem extractLoop_found_starts (order : List (GoString × GoString)) (clean : GoString)
    (dcs : List GoString) (country d : GoString)
    (h : extractLoop order clean dcs = (country, d, true)) : d <+: clean := by
  induction dcs with
  | nil => simp [extractLoop] at h
  | cons dc more ih =>
    simp only [extractLoop] at h
    split_ifs at h with hp h1
    · simp only [Prod.mk.injEq, and_true] at h
      rw [← h.2]
      exact (hasPrefix_iff _ _).mp hp
    · cases hfc : findCountry order dc with
      | none =>
        rw [hfc] at h
        exact ih h
      | some k =>
        rw [hfc] at h
        simp only [Prod.mk.injEq, and_true] at h
        rw [← h.2]
        exact (hasPrefix_iff _ _).mp hp
    · exact ih h

/-- What the embedded-dial-code function returns when the dial code is not longer than the
canonical digit string: an error alone or a result alone, never a panic. -/
theorem processWith_total (p d country : GoString) (hd : d.length ≤ (cleanNumber p).length) :
    (∃ e, processNumberWithCountryCode p d country = some (none, some e)) ∨
      ∃ r, processNumberWithCountryCode p d country = some (some r, none) := by
  cases hN : mapGet AreaCodeMap country with
  | none =>
    left
    have h1 : (0 : Int) ≤ len d ∧ len d ≤ len (cleanNumber p) := by
      simp only [len]
      omega
    refine ⟨⟨p, [(str "countryCode", str "unsupported country")]⟩, ?_⟩
    simp only [processNumberWithCountryCode, sliceFrom, h1, and_self, if_true, hN]
  | some N => exact Or.inr ⟨_, processWith_eval p d country N hd hN⟩

theorem processWithout_total (p c : GoString) :
    (∃ e, processNumberWithoutCountryCode p c = some (none, some e)) ∨
      ∃ r, processNumberWithoutCountryCode p c = some (some r, none) := by
  by_cases hc : c = []
  · exact Or.inl ⟨_, by simp only [processNumberWithoutCountryCode, hc, if_true]; rfl⟩
  by_cases hv : validateCountryCodeMeetsISO_3166_1_alpha_2 c = true
  swap
  · simp only [Bool.not_eq_true] at hv
    exact Or.inl ⟨_, by
      simp only [processNumberWithoutCountryCode, hc, if_false, hv, Bool.not_false, if_true]
      rfl⟩
  cases hd : mapGet CountryCodeMap (ToUpper c) with
  | none =>
    exact Or.inl ⟨_, by
      simp only [processNumberWithoutCountryCode, hc, if_false, hv, Bool.not_true,
        Bool.false_eq_true, hd]
      rfl⟩
  | some d =>
    cases hN : mapGet AreaCodeMap (ToUpper c) with
    | none =>
      exact Or.inl ⟨_, by
        simp only [processNumberWithoutCountryCode, hc, if_false, hv, Bool.not_true,
          Bool.false_eq_true, hd, hN]
        rfl⟩
    | some N => exact Or.inr ⟨_, processWithout_eval p c d N hc hv hd hN⟩

/-- The parser past the two validators. -/
theorem parse_of_valid (order : List (GoString × GoString)) (p c : GoString)
    (hv : validateSpaces p = true) :
    parsePhoneNumber order p c =
      if (extractCountryCodeFromNumber order p).2.2 = true then
        processNumberWithCountryCode p (extractCountryCodeFromNumber order p).2.1
          (extractCountryCodeFromNumber order p).1
      else processNumberWithoutCountryCode p c := by
  have hf := validateFormat_of_validateSpaces p hv
  rcases hext : extractCountryCodeFromNumber order p with ⟨country, d, found⟩
  cases found <;>
    simp only [parsePhoneNumber, hf, hv, Bool.not_true, Bool.false_eq_true, if_false, hext,
      if_true]

/-- The parser returns an error alone or a result alone, for every enumeration of the map. -/
theorem parse_total (order : List (GoString × GoString)) (p c : GoString) :
    (∃ e, parsePhoneNumber order p c = some (none, some e)) ∨
      ∃ r, parsePhoneNumber order p c = some (some r, none) := by
  by_cases hf : validatePhoneNumberFormat p = true
  swap
  · simp only [Bool.not_eq_true] at hf
    exact Or.inl ⟨_, by simp only [parsePhoneNumber, hf, Bool.not_false, if_true]; rfl⟩
  by_cases hv : validateSpaces p = true
  swap
  · simp only [Bool.not_eq_true] at hv
    exact Or.inl ⟨_, by
      simp only [parsePhoneNumber, hf, hv, Bool.not_true, Bool.not_false, Bool.false_eq_true,
        if_false, if_true]
      rfl⟩
  rw [parse_of_valid order p c hv]
  rcases hext : extractCountryCodeFromNumber order p with ⟨country, d, found⟩
  cases found with
  | true =>
    simp only [if_true]
    exact processWith_total p d country (extractLoop_found_starts order _ _ country d hext).length_le
  | false =>
    simp only [Bool.false_eq_true, if_false]
    exact processWithout_total p c

/-- C21. HTTP outcome, the handler being a function of the two query values: an empty
phoneNumber gives status 400 with the body "phoneNumber: required parameter is missing" and
an empty echoed number; otherwise the response is 400 with the parser's error exactly when
the parser returns that error, and 200 with the parser's result exactly when the parser
returns that result, and one of the two always happens. -/
theorem C21_http_outcome (order : List (GoString × GoString)) (phoneNumber countryCode : GoString) :
    (phoneNumber = [] →
      phoneNumberHandler order phoneNumber countryCode =
        some ⟨400, .error ⟨[], [(str "phoneNumber", str "required parameter is missing")]⟩⟩) ∧
    (phoneNumber ≠ [] →
      (∀ e, parsePhoneNumber order phoneNumber countryCode = some (none, some e) ↔
        phoneNumberHandler order phoneNumber countryCode = some ⟨400, .error e⟩) ∧
      (∀ r, parsePhoneNumber order phoneNumber countryCode = some (some r, none) ↔
        phoneNumberHandler order phoneNumber countryCode = some ⟨200, .result (some r)⟩) ∧
      ((∃ e, parsePhoneNumber order phoneNumber countryCode = some (none, some e)) ∨
        ∃ r, parsePhoneNumber order phoneNumber countryCode = some (some r, none))) := by
  constructor
  · intro h
    simp only [phoneNumberHandler, h, if_true]
  · intro hne
    refine ⟨?_, ?_, parse_total order phoneNumber countryCode⟩
    · intro e
      rcases parse_total order phoneNumber countryCode with ⟨e0, he⟩ | ⟨r0, hr⟩
      · simp [phoneNumberHandler, hne, he]
      · simp [phoneNumberHandler, hne, hr]
    · intro r
      rcases parse_total order phoneNumber countryCode with ⟨e0, he⟩ | ⟨r0, hr⟩
      · simp [phoneNumberHandler, hne, he]
      · simp [phoneNumberHandler, hne, hr]

theorem C21_witness :
    phoneNumberHandler CountryCodeMap [] (str "US") =
      some ⟨400, .error ⟨[], [(str "phoneNumber", str "required parameter is missing")]⟩⟩ :=
  (C21_http_outcome CountryCodeMap [] (str "US")).1 rfl

/-- C22. The explicit country code is ignored whenever the number embeds a dial code: if the
extractor reports found = true for the input, then parsing it with any two country codes
(empty, malformed or of another country) returns the same result or the same error, whatever
the enumeration orders of the map. -/
theorem C22_country_code_ignored (order1 order2 : List (GoString × GoString))
    (hperm1 : order1.Perm CountryCodeMap) (hperm2 : order2.Perm CountryCodeMap)
    (p c1 c2 : GoString) (hfound : (extractCountryCodeFromNumber order1 p).2.2 = true) :
    parsePhoneNumber order1 p c1 = parsePhoneNumber order2 p c2 := by
  by_cases hf : validatePhoneNumberFormat p = true
  swap
  · simp only [Bool.not_eq_true] at hf
    simp only [parsePhoneNumber, hf, Bool.not_false, if_true]
  by_cases hv : validateSpaces p = true
  swap
  · simp only [Bool.not_eq_true] at hv
    simp only [parsePhoneNumber, hf, hv, Bool.not_true, Bool.not_false, Bool.false_eq_true,
      if_false, if_true]
  rw [extract_eq_resolved order1 hperm1 p] at hfound
  rw [parse_of_valid order1 p c1 hv, parse_of_valid order2 p c2 hv,
    extract_eq_resolved order1 hperm1 p, extract_eq_resolved order2 hperm2 p]
  simp only [hfound, if_true]

set_option maxRecDepth 100000 in
theorem C22_witness :
    parsePhoneNumber CountryCodeMap.reverse (str "+52 631 3118150") (str "ESP")
      = parsePhoneNumber CountryCodeMap (str "+52 631 3118150") (str "US") :=
  C22_country_code_ignored CountryCodeMap.reverse CountryCodeMap (List.reverse_perm _)
    (List.Perm.refl _) (str "+52 631 3118150") (str "ESP") (str "US") (by decide)

/-- C23. The parser is total: it never takes a slice out of range, for every pair of strings
and every enumeration of the map. The dial code the extractor returns is a prefix of the
canonical digit string, so the dial-code strip is in range; the area-code slices are in
range under their guard. The embedded-dial-code function called directly with a dial code
longer than the canonical digit string has its first slice out of range. -/
theorem C23_parse_total (order : List (GoString × GoString)) (p c : GoString) :
    parsePhoneNumber order p c ≠ none ∧
    (∀ country d : GoString, extractCountryCodeFromNumber order p = (country, d, true) →
      d <+: cleanNumber p ∧ len d ≤ len (cleanNumber p) ∧
        sliceFrom (cleanNumber p) (len d) = some ((cleanNumber p).drop d.length)) ∧
    (∀ (rest : GoString) (N : Int), N > 0 ∧ len rest > N →
      sliceTo rest N = some (rest.take N.toNat) ∧
        sliceFrom rest N = some (rest.drop N.toNat)) ∧
    (∀ q d country : GoString, len d > len (cleanNumber q) →
      processNumberWithCountryCode q d country = none) := by
  refine ⟨?_, ?_, ?_, ?_⟩
  · rcases parse_total order p c with ⟨e, he⟩ | ⟨r, hr⟩
    · rw [he]
      simp
    · rw [hr]
      simp
  · intro country d hext
    have hpre := extractLoop_found_starts order _ _ country d hext
    have hlen := hpre.length_le
    refine ⟨hpre, ?_, ?_⟩
    · simp only [len]
      omega
    · have h1 : (0 : Int) ≤ len d ∧ len d ≤ len (cleanNumber p) := by
        simp only [len]
        omega
      simp only [sliceFrom, h1, and_self, if_true]
      simp [len]
  · intro rest N hN
    have h1 : (0 : Int) ≤ N ∧ N ≤ len rest := ⟨by omega, by omega⟩
    simp only [sliceTo, sliceFrom, h1, and_self, if_true]
  · intro q d country hlen
    have h1 : ¬ ((0 : Int) ≤ len d ∧ len d ≤ len (cleanNumber q)) := by omega
    simp only [processNumberWithCountryCode, sliceFrom, h1, if_false]

theorem C23_witness :
    processNumberWithCountryCode (str "+1") (str "351") (str "PT") = none :=
  (C23_parse_total CountryCodeMap (str "+1") []).2.2.2 (str "+1") (str "351") (str "PT")
    (by decide)

/-- C24. The space check subsumes the format check: an input the space validator accepts
is accepted by the format validator; so the parser goes on to the extractor exactly when the
space validator accepts, and otherwise returns a phoneNumber error whose message alone
depends on the format validator. -/
theorem C24_space_check_subsumes_format (order : List (GoString × GoString)) (p c : GoString) :
    (validateSpaces p = true → validatePhoneNumberFormat p = true) ∧
    (validateSpaces p = true →
      parsePhoneNumber order p c =
        if (extractCountryCodeFromNumber order p).2.2 = true then
          processNumberWithCountryCode p (extractCountryCodeFromNumber order p).2.1
            (extractCountryCodeFromNumber order p).1
        else processNumberWithoutCountryCode p c) ∧
    (validateSpaces p = false →
      parsePhoneNumber order p c =
        some (none, some ⟨p, [(str "phoneNumber",
          if validatePhoneNumberFormat p = true then str "invalid space placement"
          else str "invalid format")]⟩)) := by
  refine ⟨validateFormat_of_validateSpaces p, parse_of_valid order p c, ?_⟩
  intro hv
  by_cases hf : validatePhoneNumberFormat p = true
  · simp only [parsePhoneNumber, hf, hv, Bool.not_true, Bool.not_false, Bool.false_eq_true,
      if_false, if_true]
  · simp only [Bool.not_eq_true] at hf
    simp only [parsePhoneNumber, hf, Bool.not_false, if_true, Bool.false_eq_true, if_false]

theorem C24_witness :
    validatePhoneNumberFormat (str "+44 2079 460958") = true :=
  (C24_space_check_subsumes_format CountryCodeMap (str "+44 2079 460958") []).1 (by decide)

theorem findCountry_some (order : List (GoString × GoString))
    (hperm : order.Perm CountryCodeMap) (dc : GoString) (hdc : dc ∈ dialCodes)
    (h1 : dc ≠ str "1") : ∃ k, findCountry order dc = some k := by
  obtain ⟨e, he, hed, huniq⟩ := dialCodes_resolve dc hdc h1
  obtain ⟨k, c⟩ := e
  simp only at hed huniq
  subst hed
  exact ⟨k, findCountry_of_unique order c k (hperm.mem_iff.mpr he)
    (fun e' he' => huniq e' (hperm.mem_iff.mp he'))⟩

theorem extractLoop_none (order : List (GoString × GoString)) (clean : GoString)
    (dcs : List GoString) (h : ∀ dc ∈ dcs, ¬ dc <+: clean) :
    extractLoop order clean dcs = ([], [], false) := by
  induction dcs with
  | nil => rfl
  | cons dc more ih =>
    have hp : HasPrefix clean dc = false := by
      rw [Bool.eq_false_iff]
      exact fun hp => h dc (List.mem_cons_self _ _) ((hasPrefix_iff _ _).mp hp)
    simp only [extractLoop, hp, Bool.false_eq_true, if_false]
    exact ih (fun d hd => h d (List.mem_cons_of_mem _ hd))

/-- With a dial code of the list that starts `clean`, the loop over any list of dial codes
that holds it returns what the loop over that dial code alone returns. -/
theorem extractLoop_unique (order : List (GoString × GoString))
    (hperm : order.Perm CountryCodeMap) (clean dc : GoString) (hdc : dc ∈ dialCodes)
    (hpre : dc <+: clean) (dcs : List GoString) (hsub : ∀ x ∈ dcs, x ∈ dialCodes)
    (hmem : dc ∈ dcs) : extractLoop order clean dcs = extractLoop order clean [dc] := by
  induction dcs with
  | nil => simp at hmem
  | cons x more ih =>
    by_cases hp : HasPrefix clean x = true
    · have hx : x = dc := dialCode_unique clean x dc (hsub x (List.mem_cons_self _ _)) hdc
        ((hasPrefix_iff _ _).mp hp) hpre
      subst hx
      by_cases h1 : x = str "1"
      · subst h1
        simp only [extractLoop, hp, if_true]
      · obtain ⟨k, hk⟩ := findCountry_some order hperm x hdc h1
        simp only [extractLoop, hp, if_true, h1, if_false, hk]
    · have hne : dc ≠ x := by
        intro hdx
        rw [hdx] at hpre
        exact hp ((hasPrefix_iff _ _).mpr hpre)
      have hmem' : dc ∈ more := by
        rcases List.mem_cons.mp hmem with h | h
        · exact absurd h hne
        · exact h
      have hstep : extractLoop order clean (x :: more) = extractLoop order clean more := by
        simp only [Bool.not_eq_true] at hp
        simp only [extractLoop, hp, Bool.false_eq_true, if_false]
      rw [hstep]
      exact ih (fun y hy => hsub y (List.mem_cons_of_mem _ hy)) hmem'

/-- C25. The dial-code set is prefix-free: no dial code of the priority list is a prefix of
another one; so at most one dial code of the list is a prefix of a given string, and the
extractor's loop returns the same triple for every permutation of the priority list. -/
theorem C25_dial_codes_prefix_free :
    (∀ a ∈ dialCodes, ∀ b ∈ dialCodes, a <+: b → a = b) ∧
    (∀ s a b : GoString, a ∈ dialCodes → b ∈ dialCodes → a <+: s → b <+: s → a = b) ∧
    (∀ order : List (GoString × GoString), order.Perm CountryCodeMap →
      ∀ dcs : List GoString, dcs.Perm dialCodes → ∀ p : GoString,
        extractLoop order (cleanNumber p) dcs = extractCountryCodeFromNumber order p) := by
  refine ⟨dialCodes_prefix_free, fun s a b ha hb has hbs => dialCode_unique s a b ha hb has hbs,
    ?_⟩
  intro order hperm dcs hdcs p
  unfold extractCountryCodeFromNumber
  by_cases hex : ∃ dc ∈ dialCodes, dc <+: cleanNumber p
  · obtain ⟨dc, hdc, hpre⟩ := hex
    rw [extractLoop_unique order hperm _ dc hdc hpre dcs (fun x hx => hdcs.mem_iff.mp hx)
        (hdcs.mem_iff.mpr hdc),
      extractLoop_unique order hperm _ dc hdc hpre dialCodes (fun _ hx => hx) hdc]
  · have hno : ∀ dc ∈ dialCodes, ¬ dc <+: cleanNumber p := fun dc hdc hpre => hex ⟨dc, hdc, hpre⟩
    rw [extractLoop_none order _ dcs (fun dc hdc => hno dc (hdcs.mem_iff.mp hdc)),
      extractLoop_none order _ dialCodes hno]

theorem C25_witness :
    extractLoop CountryCodeMap.reverse (cleanNumber (str "+351210942000")) dialCodes.reverse
      = extractCountryCodeFromNumber CountryCodeMap.reverse (str "+351210942000") :=
  C25_dial_codes_prefix_free.2.2 CountryCodeMap.reverse (List.reverse_perm _) dialCodes.reverse
    (List.reverse_perm _) (str "+351210942000")

end PhoneLookup
